import Mathlib

/-!
# Verification of the straits-babel trait-dispatch pass

A shallow embedding of `src/plugin.js`, the tree-rewriting pass that compiles
the `use traits * from` / `.*` extension down to plain JavaScript.  The upstream
lexical layer encodes the surface syntax as placeholder nodes: a labeled
statement with label `_StraitsProvider` (a provider statement) and a member
access through the reserved property `_Straits` (a trait access).  The pass
registers provider statements per enclosing block, propagates providers into
nested namespaces, rewrites trait accesses into computed member accesses keyed
by generated identifiers, synthesizes a `getSymbol` resolver, emits declarations
before each namespace anchor, removes the anchor, restores the surface syntax
inside string and template literals, and finally rejects the unit if any
`_Straits` identifier is left.
-/

set_option maxHeartbeats 4000000
set_option maxRecDepth 20000

namespace StraitsBabel

/-- Compile-time errors raised by the pass (babel `assert` failures and
`buildCodeFrameError` throws in `src/plugin.js`). -/
inductive CErr where
  /-- `"use traits * from" must be placed in a block, or in the outermost scope.` -/
  | providerPlacement
  /-- `"use traits * from" requires an expression.` -/
  | providerNoExpression
  /-- assertion failures in the `Identifier` visitor of step 3 (marker in a
  position other than the property of a non-computed member expression that is
  itself the object of an outer member expression). -/
  | badMarkerShape
  /-- `.* used, without using any traits.` raised by `finalCheck`. -/
  | leftoverMarker
deriving DecidableEq, Repr

/-- One element of a template literal: `babel-types`' `TemplateElement`, with a
`raw` and a `cooked` spelling and the `tail` flag. -/
structure TElem where
  raw : String
  cooked : String
  tail : Bool
deriving DecidableEq, Repr

mutual
/-- Expressions of the embedded babel AST fragment.  `member` is
`MemberExpression` with its `computed` flag; `ident` is `Identifier`;
`strLit` is `StringLiteral`; `tmpl` is `TemplateLiteral`; `call` is
`CallExpression`; `other` stands for any further expression kind, carrying its
expression children (the pass only ever traverses such nodes generically). -/
inductive Expr where
  | ident (name : String)
  | member (obj : Expr) (prop : Expr) (computed : Bool)
  | strLit (value : String)
  | tmpl (quasis : List TElem) (exprs : ExprList)
  | call (callee : Expr) (args : ExprList)
  | other (tag : String) (children : ExprList)

inductive ExprList where
  | nil
  | cons (e : Expr) (es : ExprList)
end

/-- The declarator list of a `VariableDeclaration`: binder name and initializer. -/
inductive DeclList where
  | nil
  | cons (id : String) (init : Expr) (rest : DeclList)

mutual
/-- Statements of the embedded fragment.  `labeled` is `LabeledStatement`
(label name and body), `block` is `BlockStatement`, `varDecl` is
`VariableDeclaration`, `getSymbolDecl` stands for the synthesized resolver
`FunctionDeclaration` produced by the `getSymbolBuilder` template (its runtime
semantics are embedded separately as `getSymbolRun`; its body contains no
`_Straits` identifier and no string matched by `cleanString`), and `other`
stands for any further statement kind with its expression and statement
children. -/
inductive Stmt where
  | exprStmt (e : Expr)
  | labeled (label : String) (body : Stmt)
  | block (body : StmtList)
  | varDecl (kind : String) (decls : DeclList)
  | getSymbolDecl (name : String)
  | other (tag : String) (es : ExprList) (ss : StmtList)

inductive StmtList where
  | nil
  | cons (s : Stmt) (ss : StmtList)
end

/-! ## The `finalCheck` marker scan

`finalCheck` traverses every `Identifier` of the unit and throws iff one is
named `_Straits`.  Babel's traversal reaches identifiers in every syntactic
role: member properties (computed or not), labels of labeled statements,
declarator binders, function names.  The following boolean predicates are that
scan. -/

mutual
def hasStraitsE : Expr → Bool
  | .ident n => n = "_Straits"
  | .member o p _ => hasStraitsE o || hasStraitsE p
  | .strLit _ => false
  | .tmpl _ es => hasStraitsEL es
  | .call f a => hasStraitsE f || hasStraitsEL a
  | .other _ ch => hasStraitsEL ch

def hasStraitsEL : ExprList → Bool
  | .nil => false
  | .cons e es => hasStraitsE e || hasStraitsEL es
end

def hasStraitsDL : DeclList → Bool
  | .nil => false
  | .cons id init rest => id = "_Straits" || hasStraitsE init || hasStraitsDL rest

mutual
def hasStraitsS : Stmt → Bool
  | .exprStmt e => hasStraitsE e
  | .labeled l b => l = "_Straits" || hasStraitsS b
  | .block ss => hasStraitsSL ss
  | .varDecl _ ds => hasStraitsDL ds
  | .getSymbolDecl n => n = "_Straits"
  | .other _ es ss => hasStraitsEL es || hasStraitsSL ss

def hasStraitsSL : StmtList → Bool
  | .nil => false
  | .cons s ss => hasStraitsS s || hasStraitsSL ss
end

/-- `finalCheck`: making sure that no `_Straits` was left unresolved; throws
`.* used, without using any traits.` at the first offending identifier. -/
def finalCheck (prog : StmtList) : Except CErr Unit :=
  if hasStraitsSL prog then .error .leftoverMarker else .ok ()

/-! ## `cleanString`

`str.replace(/\._Straits\.?/g, ".*").replace(/_StraitsProvider:/g, "use traits * from")`:
a left-to-right scan replacing each occurrence of `._Straits`, together with an
immediately following `.` when present (the regex' optional `\.?`, matched
greedily), by `.*`; then a second scan replacing each `_StraitsProvider:` by
`use traits * from`.  The scans are written on `List Char` with an explicit
fuel argument equal to the remaining length, so that they are structural and
kernel-reducible; each step consumes at least one character, so the fuel never
runs out on the initial call. -/

def replStraits : Nat → List Char → List Char
  | 0, cs => cs
  | fuel + 1, cs =>
    match cs with
    | [] => []
    | c :: rest =>
      if (String.toList "._Straits").isPrefixOf cs then
        match cs.drop 9 with
        | '.' :: after2 => '.' :: '*' :: replStraits fuel after2
        | after => '.' :: '*' :: replStraits fuel after
      else c :: replStraits fuel rest

def replProvider : Nat → List Char → List Char
  | 0, cs => cs
  | fuel + 1, cs =>
    match cs with
    | [] => []
    | c :: rest =>
      if (String.toList "_StraitsProvider:").isPrefixOf cs then
        (String.toList "use traits * from") ++ replProvider fuel (cs.drop 17)
      else c :: replProvider fuel rest

def cleanString (s : String) : String :=
  let cs1 := replStraits s.toList.length s.toList
  String.mk (replProvider cs1.length cs1)

/-! ## Paths and the namespace registry

Babel paths are stable handles on node positions; we address statement
positions by the list of child indices from the `Program` root (the root itself
is `[]`).  Only statements can contain statements in this fragment, so every
ancestor of a block is again a statement position, and the `parentPath` chain
of the code's inheritance loop is exactly the chain of proper prefixes of a
path.  Child indexing: a `block`'s body and an `other`'s statement children are
numbered from `0`; a `labeled`'s body is child `0`. -/

abbrev Path := List Nat

/-- `TraitNamespace`: the anchor (`this.path`, the first provider statement
found in the block) and the insertion-ordered provider set (`this.providers`,
a `Set` of statement paths). -/
structure NS where
  anchor : Path
  providers : List Path
deriving DecidableEq, Repr

/-- The `traitNamespaces` map: insertion-ordered, keyed by the enclosing block's
path (`path.parentPath`). -/
abbrev Registry := List (Path × NS)

def regKeys (r : Registry) : List Path := r.map Prod.fst

/-- Update the namespace stored at key `p` in place (all other entries kept). -/
def regUpdate (r : Registry) (p : Path) (f : NS → NS) : Registry :=
  r.map fun e => if e.fst = p then (e.fst, f e.snd) else e

/-- `TraitNamespace.addProvider` on an already-validated provider path: `Set.add`,
keeping insertion order. -/
def addProviderPath (ns : NS) (q : Path) : NS :=
  if q ∈ ns.providers then ns else { ns with providers := ns.providers ++ [q] }

/-- The syntactic kind of a node's parent, as tested by the
`path.parent.type === 'BlockStatement' || path.parent.type === 'Program'`
assertion. -/
inductive PKind where
  | program
  | blockK
  | otherK
deriving DecidableEq, Repr

/-! Step 1 of the `Program` visitor: `path.traverse({ LabeledStatement(path){...} })`.
Pre-order discovery of every labeled statement with label `_StraitsProvider`;
each is validated (parent must be a block or the program; the body must carry an
expression, i.e. be an expression statement) and attached to the namespace of
its parent block, creating it on first contact (`defaultGet`). -/

mutual
def collectStmt (pp : Path) (k : PKind) (my : Path) (s : Stmt) (acc : Registry) :
    Except CErr Registry :=
  match s with
  | .labeled l b =>
    if l = "_StraitsProvider" then
      if k = .program ∨ k = .blockK then
        match b with
        | .exprStmt _ =>
          let acc2 := match List.lookup pp acc with
            | some _ => regUpdate acc pp (fun ns => addProviderPath ns my)
            | none => acc ++ [(pp, { anchor := my, providers := [my] })]
          collectStmt my .otherK (my ++ [0]) b acc2
        | _ => .error .providerNoExpression
      else .error .providerPlacement
    else collectStmt my .otherK (my ++ [0]) b acc
  | .block ss => collectStmts my .blockK 0 ss acc
  | .other _ _ ss => collectStmts my .otherK 0 ss acc
  | _ => .ok acc

def collectStmts (pp : Path) (k : PKind) (i : Nat) (ss : StmtList) (acc : Registry) :
    Except CErr Registry :=
  match ss with
  | .nil => .ok acc
  | .cons s rest => do
    let acc2 ← collectStmt pp k (pp ++ [i]) s acc
    collectStmts pp k (i + 1) rest acc2
end

def collectProgram (prog : StmtList) : Except CErr Registry :=
  collectStmts [] .program 0 prog []

/-! Step 2 of the `Program` visitor: namespace inheritance.  For each namespace
(in registry order), walk `blockPath.parentPath` up to the root; every ancestor
path that is itself a registry key contributes all of its current providers
(`addProvider` on each, a set union keeping insertion order). -/

/-- The `parentPath` chain of a node at path `p`: all proper prefixes, nearest
ancestor first, ending with the program root `[]`. -/
def ancChain (p : Path) : List Path :=
  (List.range p.length).reverse.map fun k => p.take k

/-- One iteration of the `while (parentPath)` loop for the namespace keyed at
`b`: if the ancestor path `a` is itself a registry key, add all of its current
providers to `b`'s namespace. -/
def inheritStep (b : Path) (acc : Registry) (a : Path) : Registry :=
  match List.lookup a acc with
  | some ansNS => regUpdate acc b (fun ns => ansNS.providers.foldl addProviderPath ns)
  | none => acc

/-- The whole `while (parentPath)` loop for the namespace keyed at `b`. -/
def inheritOne (reg : Registry) (b : Path) : Registry :=
  (ancChain b).foldl (inheritStep b) reg

/-- The `for (const [blockPath, traitNS] of traitNamespaces)` inheritance loop. -/
def inheritAll (reg : Registry) : Registry :=
  (regKeys reg).foldl inheritOne reg

/-! ## Step 3: the member rewriter

Each namespace's `blockPath.traverse` walks the block's subtree, skipping any
nested block that is itself a registry key (`subBlock.skip()`), and fires the
`Identifier` visitor on every identifier named `_Straits`.  Babel visits a
member expression's object before its property, so for a well-shaped marker
`(obj)._Straits.name` the markers inside `obj` are rewritten first, then the
name is requested from the namespace's memoized `symbols` map and the whole
access becomes `(obj)[generatedId]` (computed).  For a computed outer access
`(obj)._Straits[e]` the `._Straits` part is dropped and traversal continues in
`obj` and `e`.  Every other occurrence of an `_Straits` identifier trips one of
the visitor's assertions.

The per-namespace traversals of the source touch pairwise disjoint regions of
the tree (the governed, non-nested subtrees), so they are embedded as a single
walk from the root that keeps track of the innermost enclosing registered block
(`gov`); outside any registered block expressions are untouched, exactly as no
`blockPath.traverse` ever reaches them.  The memoized `symbols` maps live in
`RwSt.tabs`, keyed by the governing block; fresh identifiers come from a
counter standing for the scope's collision-free `generateUidIdentifier`. -/

/-- A namespace's `symbols` map: trait name to generated identifier name,
in first-request order (a JS `Map`). -/
abbrev Tab := List (String × String)

abbrev Tabs := List (Path × Tab)

structure RwSt where
  counter : Nat
  tabs : Tabs
deriving DecidableEq, Repr

/-- `scope.generateUidIdentifier(base)`: a collision-free generated name. -/
def uidName (base : String) (n : Nat) : String :=
  "_" ++ base ++ "_" ++ toString n

/-- `TraitNamespace.provideSymbol`: memoized lookup-or-create. -/
def provideSymbol (tab : Tab) (c : Nat) (sym : String) : String × Tab × Nat :=
  match List.lookup sym tab with
  | some id => (id, tab, c)
  | none =>
    let id := uidName sym c
    (id, tab ++ [(sym, id)], c + 1)

mutual
/-- The `Identifier` visitor of step 3, from the perspective of the nodes it
rewrites.  The two first cases are the marker shapes accepted by the visitor's
assertions (the outer member access computed or not); the two `badMarkerShape`
cases are `_Straits` identifiers whose surrounding shape trips an assertion
(a non-computed member property whose grandparent is not an outer member
access, and any other identifier position).  The non-computed marker whose
outer property is not an identifier cannot be produced by the parser and is
mapped to the same assertion-level error. -/
def rewriteExpr (tab : Tab) (c : Nat) : Expr → Except CErr (Expr × Tab × Nat)
  | .member (.member obj (.ident "_Straits") false) p true => do
    let (obj2, tab1, c1) ← rewriteExpr tab c obj
    let (p2, tab2, c2) ← rewriteExpr tab1 c1 p
    .ok (.member obj2 p2 true, tab2, c2)
  | .member (.member obj (.ident "_Straits") false) (.ident sym) false => do
    let (obj2, tab1, c1) ← rewriteExpr tab c obj
    let (id, tab2, c2) := provideSymbol tab1 c1 sym
    .ok (.member obj2 (.ident id) true, tab2, c2)
  | .member _ (.ident "_Straits") false => .error .badMarkerShape
  | .member o p comp => do
    let (o2, tab1, c1) ← rewriteExpr tab c o
    let (p2, tab2, c2) ← rewriteExpr tab1 c1 p
    .ok (.member o2 p2 comp, tab2, c2)
  | .ident n => if n = "_Straits" then .error .badMarkerShape else .ok (.ident n, tab, c)
  | .strLit v => .ok (.strLit v, tab, c)
  | .tmpl qs es => do
    let (es2, tab1, c1) ← rewriteExprList tab c es
    .ok (.tmpl qs es2, tab1, c1)
  | .call f a => do
    let (f2, tab1, c1) ← rewriteExpr tab c f
    let (a2, tab2, c2) ← rewriteExprList tab1 c1 a
    .ok (.call f2 a2, tab2, c2)
  | .other tg ch => do
    let (ch2, tab1, c1) ← rewriteExprList tab c ch
    .ok (.other tg ch2, tab1, c1)

def rewriteExprList (tab : Tab) (c : Nat) : ExprList → Except CErr (ExprList × Tab × Nat)
  | .nil => .ok (.nil, tab, c)
  | .cons e es => do
    let (e2, tab1, c1) ← rewriteExpr tab c e
    let (es2, tab2, c2) ← rewriteExprList tab1 c1 es
    .ok (.cons e2 es2, tab2, c2)
end

/-- Declarators: babel visits the binder identifier (assertion error if it is
named `_Straits`) and then the initializer. -/
def rewriteDecls (tab : Tab) (c : Nat) : DeclList → Except CErr (DeclList × Tab × Nat)
  | .nil => .ok (.nil, tab, c)
  | .cons id init rest =>
    if id = "_Straits" then .error .badMarkerShape
    else do
      let (init2, tab1, c1) ← rewriteExpr tab c init
      let (rest2, tab2, c2) ← rewriteDecls tab1 c1 rest
      .ok (.cons id init2 rest2, tab2, c2)

def tabsGet (tabs : Tabs) (g : Path) : Tab :=
  (List.lookup g tabs).getD []

def tabsSet (tabs : Tabs) (g : Path) (tab : Tab) : Tabs :=
  match List.lookup g tabs with
  | some _ => tabs.map fun e => if e.fst = g then (e.fst, tab) else e
  | none => tabs ++ [(g, tab)]

/-- Run the expression-level rewriter against the `symbols` map of the
governing namespace `gov` (no governing namespace: the expression is never
traversed and is left untouched). -/
def rewriteUnder (gov : Option Path) (st : RwSt) (e : Expr) : Except CErr (Expr × RwSt) :=
  match gov with
  | none => .ok (e, st)
  | some g => do
    let (e2, tab2, c2) ← rewriteExpr (tabsGet st.tabs g) st.counter e
    .ok (e2, ⟨c2, tabsSet st.tabs g tab2⟩)

mutual
/-- The statement-level walk of step 3.  `keys` are the registry keys; `gov`
is the innermost enclosing registered block, switched on entering a registered
block (this is the source's per-namespace `blockPath.traverse` together with
its `subBlock.skip()` on nested registered blocks, merged into one walk over
their disjoint governed regions); `p` is the current statement's path.  Label
identifiers and declarator binders are visited by babel's traversal, so inside
a governed region a label or binder named `_Straits` trips the visitor's
assertions. -/
def rewriteStmt (keys : List Path) (gov : Option Path) (p : Path) (st : RwSt) :
    Stmt → Except CErr (Stmt × RwSt)
  | .exprStmt e => do
    let (e2, st2) ← rewriteUnder gov st e
    .ok (.exprStmt e2, st2)
  | .labeled l b =>
    if gov.isSome ∧ l = "_Straits" then .error .badMarkerShape
    else do
      let (b2, st2) ← rewriteStmt keys gov (p ++ [0]) st b
      .ok (.labeled l b2, st2)
  | .block ss => do
    let gov2 := if p ∈ keys then some p else gov
    let (ss2, st2) ← rewriteStmts keys gov2 p 0 st ss
    .ok (.block ss2, st2)
  | .varDecl kind ds =>
    match gov with
    | none => .ok (.varDecl kind ds, st)
    | some g => do
      let (ds2, tab2, c2) ← rewriteDecls (tabsGet st.tabs g) st.counter ds
      .ok (.varDecl kind ds2, ⟨c2, tabsSet st.tabs g tab2⟩)
  | .getSymbolDecl n =>
    if gov.isSome ∧ n = "_Straits" then .error .badMarkerShape
    else .ok (.getSymbolDecl n, st)
  | .other tg es ss => do
    let (es2, st2) ←
      match gov with
      | none => pure (es, st)
      | some g => do
        let (es2, tab2, c2) ← rewriteExprList (tabsGet st.tabs g) st.counter es
        pure (es2, (⟨c2, tabsSet st.tabs g tab2⟩ : RwSt))
    let (ss2, st3) ← rewriteStmts keys gov p 0 st2 ss
    .ok (.other tg es2 ss2, st3)

def rewriteStmts (keys : List Path) (gov : Option Path) (pp : Path) (i : Nat) (st : RwSt) :
    StmtList → Except CErr (StmtList × RwSt)
  | .nil => .ok (.nil, st)
  | .cons s rest => do
    let (s2, st2) ← rewriteStmt keys gov (pp ++ [i]) st s
    let (rest2, st3) ← rewriteStmts keys gov pp (i + 1) st2 rest
    .ok (.cons s2 rest2, st3)
end

/-- The walk started from the `Program` root (the program itself can be a
registered "block": providers in the outermost scope). -/
def rewriteProgram (keys : List Path) (st : RwSt) (prog : StmtList) :
    Except CErr (StmtList × RwSt) :=
  rewriteStmts keys (if ([] : Path) ∈ keys then some [] else none) [] 0 st prog

/-! ## Finalize and remove

`TraitNamespace.finalize` inserts, immediately before the anchor statement, one
`const` declaration per entry of the `symbols` map (in insertion order), each
binding the generated identifier to
`getSymbol("name", ...providingExpressions)`; a namespace with an empty
`symbols` map inserts nothing.  `TraitNamespace.remove` then deletes
`this.path` — the anchor, i.e. the first provider statement of the block —
from the tree.  Insert-before followed by removal of the very same statement is
a replacement of the anchor by its (possibly empty) declaration list; provider
statements other than the anchor are not removed by the source.  The provider
expressions are read from the tree as it stands after step 3 (babel paths are
live references), which is what `providerExprList` does. -/

def nthStmt : StmtList → Nat → Option Stmt
  | .nil, _ => none
  | .cons s _, 0 => some s
  | .cons _ ss, n + 1 => nthStmt ss n

/-- The statement children of a statement, in the indexing used by the
collection and rewriting walks. -/
def stmtChild : Stmt → StmtList
  | .block ss => ss
  | .labeled _ b => .cons b .nil
  | .other _ _ ss => ss
  | _ => .nil

/-- Navigate a statement path from the program root. -/
def stmtAtList (ss : StmtList) : Path → Option Stmt
  | [] => none
  | [i] => nthStmt ss i
  | i :: rest =>
    match nthStmt ss i with
    | some s => stmtAtList (stmtChild s) rest
    | none => none

/-- `p.node.body.expression` for a provider statement path. -/
def providerExpr (prog : StmtList) (q : Path) : Option Expr :=
  match stmtAtList prog q with
  | some (.labeled _ (.exprStmt e)) => some e
  | _ => none

def providerExprList (prog : StmtList) (ns : NS) : List Expr :=
  ns.providers.filterMap (providerExpr prog)

def toExprList : List Expr → ExprList
  | [] => .nil
  | e :: es => .cons e (toExprList es)

/-- The declarator list built by `finalize`:
`id = getSymbol("name", ...providingExpressions)` per `symbols` entry. -/
def declListOfTab (gsName : String) (pexprs : List Expr) : Tab → DeclList
  | [] => .nil
  | (name, id) :: rest =>
    .cons id (.call (.ident gsName) (toExprList (.strLit name :: pexprs)))
      (declListOfTab gsName pexprs rest)

/-- The anchor replacement of each namespace: `none` when the `symbols` map is
empty (`finalize` inserts nothing, `remove` deletes the anchor), otherwise the
inserted `const` declaration. -/
def anchorData (reg : Registry) (tabs : Tabs) (gsName : String) (prog : StmtList) :
    List (Path × Option Stmt) :=
  reg.map fun e =>
    (e.snd.anchor,
      match tabsGet tabs e.fst with
      | [] => none
      | tab => some (.varDecl "const" (declListOfTab gsName (providerExprList prog e.snd) tab)))

mutual
/-- Apply all `finalize`/`remove` effects: each anchor statement is replaced by
its declaration (or dropped), every other statement is kept with its children
processed.  Paths index the tree before any insertion, exactly as babel paths
keep addressing the original nodes. -/
def expandStmt (ad : List (Path × Option Stmt)) (p : Path) (s : Stmt) : Stmt :=
  match s with
  | .block ss => .block (expandStmts ad p 0 ss)
  | .labeled l b => .labeled l (expandStmt ad (p ++ [0]) b)
  | .other tg es ss => .other tg es (expandStmts ad p 0 ss)
  | s => s

def expandStmts (ad : List (Path × Option Stmt)) (pp : Path) (i : Nat) :
    StmtList → StmtList
  | .nil => .nil
  | .cons s rest =>
    let tail := expandStmts ad pp (i + 1) rest
    match List.lookup (pp ++ [i]) ad with
    | some (some d) => .cons d tail
    | some none => tail
    | none => .cons (expandStmt ad (pp ++ [i]) s) tail
end

/-! ## The literal text patcher

`StringLiteral` values are replaced by their `cleanString` image (babel's
requeue of the replacement node finds nothing further to change, since the
rewritten text contains no leftover occurrence).  A `TemplateElement` is
replaced only when *both* its `raw` and its `cooked` spelling change — the
source skips the element when `newValue.raw === value.raw ||
newValue.cooked === value.cooked`. -/

def cleanTElem (q : TElem) : TElem :=
  if cleanString q.raw ≠ q.raw ∧ cleanString q.cooked ≠ q.cooked then
    { q with raw := cleanString q.raw, cooked := cleanString q.cooked }
  else q

mutual
def cleanExpr : Expr → Expr
  | .ident n => .ident n
  | .member o p comp => .member (cleanExpr o) (cleanExpr p) comp
  | .strLit v => .strLit (cleanString v)
  | .tmpl qs es => .tmpl (qs.map cleanTElem) (cleanExprList es)
  | .call f a => .call (cleanExpr f) (cleanExprList a)
  | .other tg ch => .other tg (cleanExprList ch)

def cleanExprList : ExprList → ExprList
  | .nil => .nil
  | .cons e es => .cons (cleanExpr e) (cleanExprList es)
end

def cleanDecls : DeclList → DeclList
  | .nil => .nil
  | .cons id init rest => .cons id (cleanExpr init) (cleanDecls rest)

mutual
def cleanStmt : Stmt → Stmt
  | .exprStmt e => .exprStmt (cleanExpr e)
  | .labeled l b => .labeled l (cleanStmt b)
  | .block ss => .block (cleanStmts ss)
  | .varDecl kind ds => .varDecl kind (cleanDecls ds)
  | .getSymbolDecl n => .getSymbolDecl n
  | .other tg es ss => .other tg (cleanExprList es) (cleanStmts ss)

def cleanStmts : StmtList → StmtList
  | .nil => .nil
  | .cons s ss => .cons (cleanStmt s) (cleanStmts ss)
end

/-! ## The whole pass

The `Program` visitor.  The source inserts the resolver declaration
(`path.unshiftContainer`) right after the empty-registry check; nothing between
that point and the end of the pass interacts with the inserted declaration (it
is not a block, so it is never a registry key and governs nothing; it contains
no `_Straits` identifier and no string changed by `cleanString`; inserting it
shifts no babel path since paths are node handles), so the embedding prepends
it after the block-local phases, when statement paths are no longer used. -/

def runPass (prog : StmtList) : Except CErr StmtList := do
  let gsName := uidName "getSymbol" 0
  let reg ← collectProgram prog
  match reg with
  | [] => do
    let _ ← finalCheck prog
    .ok prog
  | _ => do
    let reg2 := inheritAll reg
    let (prog2, st) ← rewriteProgram (regKeys reg2) ⟨1, []⟩ prog
    let prog3 := expandStmts (anchorData reg2 st.tabs gsName prog2) [] 0 prog2
    let prog4 := StmtList.cons (.getSymbolDecl gsName) prog3
    let prog5 := cleanStmts prog4
    let _ ← finalCheck prog5
    .ok prog5

/-! ## Runtime semantics of the synthesized resolver

The `getSymbolBuilder` template:

```
function GET_SYMBOL( targetSymName, ...symbolSets ) {
  let symbol;
  symbolSets.forEach( symbolSet => {
    if( typeof symbolSet[targetSymName] === 'symbol' ) {
      if( !! symbol ) { throw multiple-providers; }
      symbol = symbolSet[targetSymName];
    }
  });
  if( ! symbol ) { throw no-provider; }
  return symbol;
}
```

A provider value is a JS object, modeled as an association list from property
name to runtime value; the only runtime-kind distinction the routine makes is
`typeof v === 'symbol'`.  Every JS `Symbol` is truthy and the local `symbol`
variable starts out `undefined` (falsy), so `!!symbol` is exactly "a candidate
was already recorded". -/

/-- A JS runtime value as inspected by the resolver: a unique token (`Symbol`,
identified by a number) or any other value. -/
inductive JSVal where
  | symbol (id : Nat)
  | other
deriving DecidableEq, Repr

abbrev SymbolSet := List (String × JSVal)

/-- Errors thrown by the resolver at the host program's runtime. -/
inductive RErr where
  | multipleProviders
  | noProvider
deriving DecidableEq, Repr

/-- `symbolSet[targetSymName]` followed by the `typeof ... === 'symbol'` test. -/
def candidateOf (name : String) (set : SymbolSet) : Option Nat :=
  match List.lookup name set with
  | some (.symbol id) => some id
  | _ => none

/-- The `forEach` loop: `acc` is the `symbol` local variable. -/
def getSymbolLoop (name : String) (acc : Option Nat) :
    List SymbolSet → Except RErr (Option Nat)
  | [] => .ok acc
  | set :: rest =>
    match candidateOf name set with
    | some id =>
      match acc with
      | some _ => .error .multipleProviders
      | none => getSymbolLoop name (some id) rest
    | none => getSymbolLoop name acc rest

/-- The synthesized resolver routine, called with a target trait name and the
ordered list of provider values. -/
def getSymbolRun (name : String) (sets : List SymbolSet) : Except RErr Nat := do
  match ← getSymbolLoop name none sets with
  | none => .error .noProvider
  | some id => .ok id

/-! ## Resolver semantics: auxiliary lemmas and claim C2 -/

theorem getSymbolLoop_some (name : String) (a : Nat) :
    ∀ sets : List SymbolSet, getSymbolLoop name (some a) sets =
      if sets.filterMap (candidateOf name) = [] then .ok (some a)
      else .error .multipleProviders := by
  intro sets
  induction sets with
  | nil => simp [getSymbolLoop]
  | cons set rest ih =>
    simp only [getSymbolLoop, List.filterMap_cons]
    split
    · rename_i id heq
      simp [heq]
    · rename_i heq
      simp only [heq]
      exact ih

theorem getSymbolLoop_none (name : String) :
    ∀ sets : List SymbolSet, getSymbolLoop name none sets =
      match sets.filterMap (candidateOf name) with
      | [] => .ok none
      | s :: rest => if rest = [] then .ok (some s) else .error .multipleProviders := by
  intro sets
  induction sets with
  | nil => simp [getSymbolLoop]
  | cons set rest ih =>
    simp only [getSymbolLoop, List.filterMap_cons]
    split
    · rename_i id heq
      simp only [heq, getSymbolLoop_some]
    · rename_i heq
      simp only [heq]
      exact ih

/-- Claim C2: for every invocation of the synthesized resolver routine with a
target trait name and an ordered list of provider values, the result is
determined by the list of candidates (providers carrying a value of runtime
kind symbol at that name): more than one candidate fails with the
"multiple providers" runtime error, zero candidates fail after the full scan
with the "no provider" runtime error, and a single candidate is returned. -/
theorem getSymbolRun_resolves (name : String) (sets : List SymbolSet) :
    getSymbolRun name sets =
      match sets.filterMap (candidateOf name) with
      | [] => .error .noProvider
      | [id] => .ok id
      | _ :: _ :: _ => .error .multipleProviders := by
  unfold getSymbolRun
  rw [getSymbolLoop_none]
  cases h : sets.filterMap (candidateOf name) with
  | nil => rfl
  | cons x xs => cases xs <;> rfl

/-! ## The rewriter on marker-free expressions -/

mutual
theorem rewriteExpr_mfree (e : Expr) : ∀ tab c, hasStraitsE e = false →
    rewriteExpr tab c e = .ok (e, tab, c) := by
  cases e with
  | ident n =>
    intro tab c h
    simp [hasStraitsE] at h
    simp [rewriteExpr, h]
  | strLit v => intro tab c h; rfl
  | tmpl qs es =>
    intro tab c h
    simp [hasStraitsE] at h
    simp only [rewriteExpr, rewriteExprList_mfree es tab c h]
    rfl
  | call f a =>
    intro tab c h
    simp [hasStraitsE] at h
    simp only [rewriteExpr, rewriteExpr_mfree f tab c h.1, bind, Except.bind,
      rewriteExprList_mfree a tab c h.2]
  | other tg ch =>
    intro tab c h
    simp [hasStraitsE] at h
    simp only [rewriteExpr, rewriteExprList_mfree ch tab c h]
    rfl
  | member o p comp =>
    intro tab c h
    simp [hasStraitsE] at h
    rw [rewriteExpr.eq_def]
    split
    all_goals try (exfalso; simp_all [hasStraitsE]; done)
    rename_i heq
    injection heq with h1 h2 h3
    subst h1; subst h2; subst h3
    simp only [rewriteExpr_mfree o tab c h.1, bind, Except.bind,
      rewriteExpr_mfree p tab c h.2]

theorem rewriteExprList_mfree (es : ExprList) : ∀ tab c, hasStraitsEL es = false →
    rewriteExprList tab c es = .ok (es, tab, c) := by
  cases es with
  | nil => intro tab c h; rfl
  | cons e es =>
    intro tab c h
    simp [hasStraitsEL] at h
    simp only [rewriteExprList, rewriteExpr_mfree e tab c h.1, bind, Except.bind,
      rewriteExprList_mfree es tab c h.2]
end

/-- Claim C7: a trait-access marker whose outer member access is computed (the
trait name a dynamic sub-expression) is replaced by the rewriter with a plain
access on the underlying object — the `._Straits` part is silently dropped, no
symbol is requested, and no error is raised. -/
theorem rewriteExpr_computed_marker (obj p : Expr) (tab : Tab) (c : Nat)
    (hobj : hasStraitsE obj = false) (hp : hasStraitsE p = false) :
    rewriteExpr tab c (.member (.member obj (.ident "_Straits") false) p true) =
      .ok (.member obj p true, tab, c) := by
  simp only [rewriteExpr, rewriteExpr_mfree obj tab c hobj, bind, Except.bind,
    rewriteExpr_mfree p tab c hp]

/-- Witness for C7 at a concrete computed trait access `o._Straits[k]`. -/
theorem rewriteExpr_computed_marker_witness :
    rewriteExpr [] 0
        (.member (.member (.ident "o") (.ident "_Straits") false) (.ident "k") true) =
      .ok (.member (.ident "o") (.ident "k") true, [], 0) :=
  rewriteExpr_computed_marker (.ident "o") (.ident "k") [] 0 rfl rfl

/-! ## The literal text patcher: claim C8 -/

/-- Modelled from the claim's words, for comparison with `cleanString` (which
is translated from the source): rewrite each occurrence of exactly the textual
spelling `._Straits` to `.*` — without the source regex' optional trailing
dot — and each `_StraitsProvider:` to `use traits * from`. -/
def replStraitsClaimed : Nat → List Char → List Char
  | 0, cs => cs
  | fuel + 1, cs =>
    match cs with
    | [] => []
    | c :: rest =>
      if (String.toList "._Straits").isPrefixOf cs then
        '.' :: '*' :: replStraitsClaimed fuel (cs.drop 9)
      else c :: replStraitsClaimed fuel rest

def cleanStringClaimed (s : String) : String :=
  let cs1 := replStraitsClaimed s.toList.length s.toList
  String.mk (replProvider cs1.length cs1)

/-- Counterexample for claim C8: on the literal content `a._Straits.b` the
source's regex `\._Straits\.?` also consumes the dot that follows the
placeholder spelling, producing `a.*b`, while rewriting the spelling
`._Straits` itself to `.*` as the claim states would produce `a.*.b`. -/
theorem cleanString_claim_counterexample :
    cleanExpr (.strLit "a._Straits.b") = .strLit "a.*b" ∧
      cleanStringClaimed "a._Straits.b" = "a.*.b" ∧
      cleanString "a._Straits.b" ≠ cleanStringClaimed "a._Straits.b" :=
  ⟨rfl, rfl, by decide⟩

/-! Structure preservation: erasing every literal content from a tree commutes
with the patcher, i.e. the patcher touches nothing but literal contents. -/

def stripTElem (q : TElem) : TElem := ⟨"", "", q.tail⟩

mutual
def stripE : Expr → Expr
  | .ident n => .ident n
  | .member o p comp => .member (stripE o) (stripE p) comp
  | .strLit _ => .strLit ""
  | .tmpl qs es => .tmpl (qs.map stripTElem) (stripEL es)
  | .call f a => .call (stripE f) (stripEL a)
  | .other tg ch => .other tg (stripEL ch)

def stripEL : ExprList → ExprList
  | .nil => .nil
  | .cons e es => .cons (stripE e) (stripEL es)
end

def stripDL : DeclList → DeclList
  | .nil => .nil
  | .cons id init rest => .cons id (stripE init) (stripDL rest)

mutual
def stripS : Stmt → Stmt
  | .exprStmt e => .exprStmt (stripE e)
  | .labeled l b => .labeled l (stripS b)
  | .block ss => .block (stripSL ss)
  | .varDecl kind ds => .varDecl kind (stripDL ds)
  | .getSymbolDecl n => .getSymbolDecl n
  | .other tg es ss => .other tg (stripEL es) (stripSL ss)

def stripSL : StmtList → StmtList
  | .nil => .nil
  | .cons s ss => .cons (stripS s) (stripSL ss)
end

theorem stripTElem_clean (q : TElem) : stripTElem (cleanTElem q) = stripTElem q := by
  unfold cleanTElem
  split <;> rfl

mutual
theorem stripE_clean (e : Expr) : stripE (cleanExpr e) = stripE e := by
  cases e with
  | ident n => rfl
  | strLit v => rfl
  | member o p comp => simp only [cleanExpr, stripE, stripE_clean o, stripE_clean p]
  | tmpl qs es =>
    simp only [cleanExpr, stripE, stripEL_clean es, List.map_map]
    congr 1
    exact List.map_congr_left fun q _ => stripTElem_clean q
  | call f a => simp only [cleanExpr, stripE, stripE_clean f, stripEL_clean a]
  | other tg ch => simp only [cleanExpr, stripE, stripEL_clean ch]

theorem stripEL_clean (es : ExprList) : stripEL (cleanExprList es) = stripEL es := by
  cases es with
  | nil => rfl
  | cons e es => simp only [cleanExprList, stripEL, stripE_clean e, stripEL_clean es]
end

theorem stripDL_clean (ds : DeclList) : stripDL (cleanDecls ds) = stripDL ds := by
  induction ds with
  | nil => rfl
  | cons id init rest ih => simp only [cleanDecls, stripDL, stripE_clean init, ih]

mutual
theorem stripS_clean (s : Stmt) : stripS (cleanStmt s) = stripS s := by
  cases s with
  | exprStmt e => simp only [cleanStmt, stripS, stripE_clean e]
  | labeled l b => simp only [cleanStmt, stripS, stripS_clean b]
  | block ss => simp only [cleanStmt, stripS, stripSL_clean ss]
  | varDecl kind ds => simp only [cleanStmt, stripS, stripDL_clean ds]
  | getSymbolDecl n => rfl
  | other tg es ss => simp only [cleanStmt, stripS, stripEL_clean es, stripSL_clean ss]

theorem stripSL_clean (ss : StmtList) : stripSL (cleanStmts ss) = stripSL ss := by
  cases ss with
  | nil => rfl
  | cons s ss => simp only [cleanStmts, stripSL, stripS_clean s, stripSL_clean ss]
end

/-- Claim C8 as amended: the literal text patcher rewrites only literal
contents — erasing literal contents commutes with it — replacing each
`._Straits`, together with an immediately following dot when present, by `.*`
and each `_StraitsProvider:` by `use traits * from` in string literal values
(template elements are rewritten only when both their raw and cooked spellings
change). -/
theorem cleanStmts_amended :
    (∀ ss : StmtList, stripSL (cleanStmts ss) = stripSL ss) ∧
      (∀ v : String, cleanExpr (.strLit v) = .strLit (cleanString v)) ∧
      (∀ q : TElem,
        cleanTElem q =
          if cleanString q.raw ≠ q.raw ∧ cleanString q.cooked ≠ q.cooked then
            ⟨cleanString q.raw, cleanString q.cooked, q.tail⟩
          else q) ∧
      cleanString "a._Straits.b" = "a.*b" ∧
      cleanString "a._Straits" = "a.*" ∧
      cleanString "say _StraitsProvider: now" = "say use traits * from now" :=
  ⟨stripSL_clean, fun _ => rfl, fun _ => rfl, rfl, rfl, rfl⟩

/-! ## Programs without provider statements: claims C9 and C10 -/

mutual
/-- Does the subtree contain a labeled statement with the reserved provider
label (the marker shape the registry traversal reacts to)? -/
def hasProvS : Stmt → Bool
  | .labeled l b => l = "_StraitsProvider" || hasProvS b
  | .block ss => hasProvSL ss
  | .other _ _ ss => hasProvSL ss
  | _ => false

def hasProvSL : StmtList → Bool
  | .nil => false
  | .cons s ss => hasProvS s || hasProvSL ss
end

mutual
theorem collectStmt_noProv (s : Stmt) : ∀ pp k my acc, hasProvS s = false →
    collectStmt pp k my s acc = .ok acc := by
  cases s with
  | labeled l b =>
    intro pp k my acc h
    simp [hasProvS] at h
    simp only [collectStmt, h.1, if_false, reduceIte]
    exact collectStmt_noProv b my .otherK (my ++ [0]) acc h.2
  | block ss =>
    intro pp k my acc h
    simp [hasProvS] at h
    exact collectStmts_noProv ss my .blockK 0 acc h
  | other tg es ss =>
    intro pp k my acc h
    simp [hasProvS] at h
    exact collectStmts_noProv ss my .otherK 0 acc h
  | exprStmt e => intro pp k my acc h; rfl
  | varDecl kind ds => intro pp k my acc h; rfl
  | getSymbolDecl n => intro pp k my acc h; rfl

theorem collectStmts_noProv (ss : StmtList) : ∀ pp k i acc, hasProvSL ss = false →
    collectStmts pp k i ss acc = .ok acc := by
  cases ss with
  | nil => intro pp k i acc h; rfl
  | cons s rest =>
    intro pp k i acc h
    simp [hasProvSL] at h
    simp only [collectStmts, collectStmt_noProv s pp k (pp ++ [i]) acc h.1, bind, Except.bind]
    exact collectStmts_noProv rest pp k (i + 1) acc h.2
end

/-- Claim C9: on a tree containing no placeholder markers — no provider
statement and no `_Straits` identifier, the shape of the pass's own successful
output — the pass finds an empty registry, runs only the final check, and
returns the tree unchanged: the second run is a no-op. -/
theorem runPass_noop (prog : StmtList) (hprov : hasProvSL prog = false)
    (hmark : hasStraitsSL prog = false) : runPass prog = .ok prog := by
  unfold runPass collectProgram
  simp only [collectStmts_noProv prog [] .program 0 [] hprov, bind, Except.bind,
    finalCheck, hmark]
  rfl

/-- Witness for C9 at a concrete marker-free unit. -/
theorem runPass_noop_witness :
    runPass (.cons (.exprStmt (.member (.ident "o") (.ident "x") false)) .nil) =
      .ok (.cons (.exprStmt (.member (.ident "o") (.ident "x") false)) .nil) :=
  runPass_noop _ rfl rfl

/-- Claim C10: the final verification keys on the identifier's name alone — in
a unit with no provider statement at all, any surviving identifier spelled
`_Straits`, in any syntactic role (for instance a user-written declarator
binder), makes the pass fail with the compile-time leftover-marker error. -/
theorem runPass_rejects_leftover (prog : StmtList) (hprov : hasProvSL prog = false)
    (hmark : hasStraitsSL prog = true) : runPass prog = .error .leftoverMarker := by
  unfold runPass collectProgram
  simp only [collectStmts_noProv prog [] .program 0 [] hprov, bind, Except.bind,
    finalCheck, hmark]
  rfl

/-- Witness for C10: a unit with no provider statement whose only marker-named
identifier is a user-written `const _Straits = "x"` binder. -/
theorem runPass_rejects_leftover_witness :
    runPass (.cons (.varDecl "const" (.cons "_Straits" (.strLit "x") .nil)) .nil) =
      .error .leftoverMarker :=
  runPass_rejects_leftover _ rfl rfl

/-! ## Anchor removal: claim C3

`TraitNamespace.remove` deletes only `this.path` — the anchor, the first
provider statement discovered in the block.  Provider statements attached to
the same namespace afterwards sit in `this.providers` but are never removed,
so a block with two provider statements keeps the second one in the output. -/

/-- Claim C3 is violated by the code: on a unit whose top level holds two
provider statements, the pass succeeds but its output still contains the
second provider statement (label `_StraitsProvider`) — only the anchor was
removed.  The claim's other half does hold here: the namespace requested no
trait name, so no declaration is emitted and the anchor is gone. -/
theorem runPass_keeps_second_provider :
    runPass (.cons (.labeled "_StraitsProvider" (.exprStmt (.ident "a")))
        (.cons (.labeled "_StraitsProvider" (.exprStmt (.ident "b"))) .nil)) =
      .ok (.cons (.getSymbolDecl "_getSymbol_0")
        (.cons (.labeled "_StraitsProvider" (.exprStmt (.ident "b"))) .nil)) ∧
      hasProvSL (.cons (.getSymbolDecl "_getSymbol_0")
        (.cons (.labeled "_StraitsProvider" (.exprStmt (.ident "b"))) .nil)) = true :=
  ⟨rfl, rfl⟩

/-! ## Resolver insertion: claim C4 -/

mutual
/-- Does the subtree contain a synthesized resolver declaration? -/
def hasGS : Stmt → Bool
  | .getSymbolDecl _ => true
  | .labeled _ b => hasGS b
  | .block ss => hasGSL ss
  | .other _ _ ss => hasGSL ss
  | _ => false

def hasGSL : StmtList → Bool
  | .nil => false
  | .cons s ss => hasGS s || hasGSL ss
end

/-- Counterexample for claim C4: a unit with one provider statement and no
trait access at all — no namespace ever requests a trait name — still gets the
resolver routine inserted at its start. -/
theorem runPass_resolver_counterexample :
    hasStraitsSL (.cons (.labeled "_StraitsProvider" (.exprStmt (.ident "a"))) .nil) = false ∧
      runPass (.cons (.labeled "_StraitsProvider" (.exprStmt (.ident "a"))) .nil) =
        .ok (.cons (.getSymbolDecl "_getSymbol_0") .nil) :=
  ⟨rfl, rfl⟩

/-! ## Preservation lemmas for the resolver-count: claim C4 (amended) -/
mutual
theorem rewriteStmt_hasGS (s : Stmt) : ∀ keys gov p st s2 st2,
    rewriteStmt keys gov p st s = .ok (s2, st2) → hasGS s2 = hasGS s := by
  cases s with
  | exprStmt e =>
    intro keys gov p st s2 st2 h
    cases hr : rewriteUnder gov st e with
    | error err =>
      simp only [rewriteStmt, bind, Except.bind, hr] at h
      exact Except.noConfusion h
    | ok v =>
      simp only [rewriteStmt, bind, Except.bind, hr, Except.ok.injEq, Prod.mk.injEq] at h
      obtain ⟨h1, h2⟩ := h
      subst h1
      rfl
  | labeled l b =>
    intro keys gov p st s2 st2 h
    by_cases hc : gov.isSome ∧ l = "_Straits"
    · simp only [rewriteStmt, if_pos hc] at h
      exact Except.noConfusion h
    · cases hr : rewriteStmt keys gov (p ++ [0]) st b with
      | error err =>
        simp only [rewriteStmt, if_neg hc, bind, Except.bind, hr] at h
        exact Except.noConfusion h
      | ok v =>
        simp only [rewriteStmt, if_neg hc, bind, Except.bind, hr, Except.ok.injEq,
          Prod.mk.injEq] at h
        obtain ⟨h1, h2⟩ := h
        subst h1
        simp only [hasGS]
        exact rewriteStmt_hasGS b keys gov (p ++ [0]) st v.1 v.2 hr
  | block ss =>
    intro keys gov p st s2 st2 h
    cases hr : rewriteStmts keys (if p ∈ keys then some p else gov) p 0 st ss with
    | error err =>
      simp only [rewriteStmt, bind, Except.bind, hr] at h
      exact Except.noConfusion h
    | ok v =>
      simp only [rewriteStmt, bind, Except.bind, hr, Except.ok.injEq, Prod.mk.injEq] at h
      obtain ⟨h1, h2⟩ := h
      subst h1
      simp only [hasGS]
      exact rewriteStmts_hasGS ss keys _ p 0 st v.1 v.2 hr
  | varDecl kind ds =>
    intro keys gov p st s2 st2 h
    cases gov with
    | none =>
      simp only [rewriteStmt, Except.ok.injEq, Prod.mk.injEq] at h
      obtain ⟨h1, h2⟩ := h
      subst h1
      rfl
    | some g =>
      cases hr : rewriteDecls (tabsGet st.tabs g) st.counter ds with
      | error err =>
        simp only [rewriteStmt, bind, Except.bind, hr] at h
        exact Except.noConfusion h
      | ok v =>
        simp only [rewriteStmt, bind, Except.bind, hr, Except.ok.injEq, Prod.mk.injEq] at h
        obtain ⟨h1, h2⟩ := h
        subst h1
        rfl
  | getSymbolDecl n =>
    intro keys gov p st s2 st2 h
    by_cases hc : gov.isSome ∧ n = "_Straits"
    · simp only [rewriteStmt, if_pos hc] at h
      exact Except.noConfusion h
    · simp only [rewriteStmt, if_neg hc, Except.ok.injEq, Prod.mk.injEq] at h
      obtain ⟨h1, h2⟩ := h
      subst h1
      rfl
  | other tg es ss =>
    intro keys gov p st s2 st2 h
    cases gov with
    | none =>
      cases hr : rewriteStmts keys none p 0 st ss with
      | error err =>
        simp only [rewriteStmt, bind, Except.bind, pure, Except.pure, hr] at h
        exact Except.noConfusion h
      | ok v =>
        simp only [rewriteStmt, bind, Except.bind, pure, Except.pure, hr, Except.ok.injEq,
          Prod.mk.injEq] at h
        obtain ⟨h1, h2⟩ := h
        subst h1
        simp only [hasGS]
        exact rewriteStmts_hasGS ss keys none p 0 st v.1 v.2 hr
    | some g =>
      cases he : rewriteExprList (tabsGet st.tabs g) st.counter es with
      | error err =>
        simp only [rewriteStmt, bind, Except.bind, pure, Except.pure, he] at h
        exact Except.noConfusion h
      | ok w =>
        cases hr : rewriteStmts keys (some g) p 0
            (⟨w.2.2, tabsSet st.tabs g w.2.1⟩ : RwSt) ss with
        | error err =>
          simp only [rewriteStmt, bind, Except.bind, pure, Except.pure, he, hr] at h
          exact Except.noConfusion h
        | ok v =>
          simp only [rewriteStmt, bind, Except.bind, pure, Except.pure, he, hr,
            Except.ok.injEq, Prod.mk.injEq] at h
          obtain ⟨h1, h2⟩ := h
          subst h1
          simp only [hasGS]
          exact rewriteStmts_hasGS ss keys (some g) p 0 _ v.1 v.2 hr

theorem rewriteStmts_hasGS (ss : StmtList) : ∀ keys gov pp i st ss2 st2,
    rewriteStmts keys gov pp i st ss = .ok (ss2, st2) → hasGSL ss2 = hasGSL ss := by
  cases ss with
  | nil =>
    intro keys gov pp i st ss2 st2 h
    simp only [rewriteStmts, Except.ok.injEq, Prod.mk.injEq] at h
    obtain ⟨h1, h2⟩ := h
    subst h1
    rfl
  | cons s rest =>
    intro keys gov pp i st ss2 st2 h
    cases hs : rewriteStmt keys gov (pp ++ [i]) st s with
    | error err =>
      simp only [rewriteStmts, bind, Except.bind, hs] at h
      exact Except.noConfusion h
    | ok v =>
      cases hr : rewriteStmts keys gov pp (i + 1) v.2 rest with
      | error err =>
        simp only [rewriteStmts, bind, Except.bind, hs, hr] at h
        exact Except.noConfusion h
      | ok w =>
        simp only [rewriteStmts, bind, Except.bind, hs, hr, Except.ok.injEq,
          Prod.mk.injEq] at h
        obtain ⟨h1, h2⟩ := h
        subst h1
        simp only [hasGSL]
        rw [rewriteStmt_hasGS s keys gov (pp ++ [i]) st v.1 v.2 hs,
          rewriteStmts_hasGS rest keys gov pp (i + 1) v.2 w.1 w.2 hr]
end

mutual
theorem hasGS_cleanS (s : Stmt) : hasGS (cleanStmt s) = hasGS s := by
  cases s with
  | exprStmt e => rfl
  | labeled l b => simp only [cleanStmt, hasGS, hasGS_cleanS b]
  | block ss => simp only [cleanStmt, hasGS, hasGS_cleanSL ss]
  | varDecl kind ds => rfl
  | getSymbolDecl n => rfl
  | other tg es ss => simp only [cleanStmt, hasGS, hasGS_cleanSL ss]

theorem hasGS_cleanSL (ss : StmtList) : hasGSL (cleanStmts ss) = hasGSL ss := by
  cases ss with
  | nil => rfl
  | cons s ss => simp only [cleanStmts, hasGSL, hasGS_cleanS s, hasGS_cleanSL ss]
end

/-- The anchor replacements built by `finalize` are `const` declarations, never
resolver declarations. -/
theorem anchorData_gsFree (reg : Registry) (tabs : Tabs) (gsName : String)
    (prog : StmtList) :
    ∀ q d, List.lookup q (anchorData reg tabs gsName prog) = some (some d) →
      hasGS d = false := by
  induction reg with
  | nil => intro q d h; simp [anchorData] at h
  | cons e rest ih =>
    intro q d h
    simp only [anchorData, List.map_cons, List.lookup] at h
    split at h
    · cases ht : tabsGet tabs e.fst with
      | nil =>
        rw [ht] at h
        simp at h
      | cons x xs =>
        rw [ht] at h
        simp at h
        subst h
        rfl
    · exact ih q d (by simpa [anchorData] using h)

mutual
theorem expandStmt_hasGS (s : Stmt) :
    ∀ ad p, (∀ q d, List.lookup q ad = some (some d) → hasGS d = false) →
      hasGS s = false → hasGS (expandStmt ad p s) = false := by
  cases s with
  | block ss =>
    intro ad p had h
    simp only [hasGS] at h
    simp only [expandStmt, hasGS]
    exact expandStmts_hasGS ss ad p 0 had h
  | labeled l b =>
    intro ad p had h
    simp only [hasGS] at h
    simp only [expandStmt, hasGS]
    exact expandStmt_hasGS b ad (p ++ [0]) had h
  | other tg es ss =>
    intro ad p had h
    simp only [hasGS] at h
    simp only [expandStmt, hasGS]
    exact expandStmts_hasGS ss ad p 0 had h
  | exprStmt e => intro ad p had h; exact h
  | varDecl kind ds => intro ad p had h; exact h
  | getSymbolDecl n => intro ad p had h; exact h

theorem expandStmts_hasGS (ss : StmtList) :
    ∀ ad pp i, (∀ q d, List.lookup q ad = some (some d) → hasGS d = false) →
      hasGSL ss = false → hasGSL (expandStmts ad pp i ss) = false := by
  cases ss with
  | nil => intro ad pp i had h; exact h
  | cons s rest =>
    intro ad pp i had h
    simp only [hasGSL, Bool.or_eq_false_iff] at h
    simp only [expandStmts]
    cases hl : List.lookup (pp ++ [i]) ad with
    | none =>
      simp only [hasGSL, Bool.or_eq_false_iff]
      exact ⟨expandStmt_hasGS s ad (pp ++ [i]) had h.1,
        expandStmts_hasGS rest ad pp (i + 1) had h.2⟩
    | some o =>
      cases o with
      | none => exact expandStmts_hasGS rest ad pp (i + 1) had h.2
      | some d =>
        simp only [hasGSL, Bool.or_eq_false_iff]
        exact ⟨had _ d hl, expandStmts_hasGS rest ad pp (i + 1) had h.2⟩
end

/-- Claim C4 as amended: the resolver routine is synthesized and inserted at
the start of the unit exactly once per compiled unit whenever the registry is
nonempty — that is, as soon as at least one provider statement exists, whether
or not any trait name is ever requested — and a unit with no provider
statement gets no resolver (its tree is returned unchanged). -/
theorem runPass_resolver_amended (prog out : StmtList) (h : runPass prog = .ok out)
    (hgs : hasGSL prog = false) :
    (collectProgram prog = .ok [] → out = prog) ∧
      (∀ b ns rest, collectProgram prog = .ok ((b, ns) :: rest) →
        ∃ tail, out = .cons (.getSymbolDecl (uidName "getSymbol" 0)) tail ∧
          hasGSL tail = false) := by
  constructor
  · intro hempty
    cases hms : hasStraitsSL prog with
    | true =>
      simp only [runPass, bind, Except.bind, hempty, finalCheck, hms] at h
      exact Except.noConfusion h
    | false =>
      simp only [runPass, bind, Except.bind, hempty, finalCheck, hms] at h
      simp at h
      exact h.symm
  · intro b ns rest hcons
    simp only [runPass, bind, Except.bind, hcons] at h
    cases hrw : rewriteProgram (regKeys (inheritAll ((b, ns) :: rest))) ⟨1, []⟩ prog with
    | error err =>
      rw [hrw] at h
      exact Except.noConfusion h
    | ok v =>
      rw [hrw] at h
      obtain ⟨prog2, st⟩ := v
      have hp2 : hasGSL prog2 = false := by
        unfold rewriteProgram at hrw
        rw [rewriteStmts_hasGS prog _ _ [] 0 ⟨1, []⟩ prog2 st hrw]
        exact hgs
      have hp3 : hasGSL (expandStmts
          (anchorData (inheritAll ((b, ns) :: rest)) st.tabs (uidName "getSymbol" 0) prog2)
          [] 0 prog2) = false :=
        expandStmts_hasGS prog2 _ [] 0
          (anchorData_gsFree (inheritAll ((b, ns) :: rest)) st.tabs (uidName "getSymbol" 0)
            prog2) hp2
      cases hms : hasStraitsSL (cleanStmts (.cons (.getSymbolDecl (uidName "getSymbol" 0))
          (expandStmts (anchorData (inheritAll ((b, ns) :: rest)) st.tabs
            (uidName "getSymbol" 0) prog2) [] 0 prog2))) with
      | true =>
        simp only [finalCheck, hms] at h
        exact Except.noConfusion h
      | false =>
        simp only [finalCheck, hms] at h
        simp at h
        refine ⟨cleanStmts (expandStmts (anchorData (inheritAll ((b, ns) :: rest)) st.tabs
          (uidName "getSymbol" 0) prog2) [] 0 prog2), ?_, ?_⟩
        · rw [← h]
          rfl
        · rw [hasGS_cleanSL]
          exact hp3

/-- Witness for the amended C4 at the one-provider unit. -/
theorem runPass_resolver_amended_witness :
    ∃ tail,
      (.cons (.getSymbolDecl (uidName "getSymbol" 0)) .nil : StmtList) =
        .cons (.getSymbolDecl (uidName "getSymbol" 0)) tail ∧ hasGSL tail = false :=
  (runPass_resolver_amended
      (.cons (.labeled "_StraitsProvider" (.exprStmt (.ident "a"))) .nil)
      (.cons (.getSymbolDecl "_getSymbol_0") .nil) rfl rfl).2
    [] ⟨[0], [[0]]⟩ [] rfl



/-! ## Namespace inheritance: claim C5 -/

theorem lookup_cons_self (k : Path) (v : NS) (rest : Registry) :
    List.lookup k ((k, v) :: rest) = some v := by
  simp [List.lookup]

theorem lookup_cons_of_ne (k k' : Path) (hk : k ≠ k') (v : NS) (rest : Registry) :
    List.lookup k ((k', v) :: rest) = List.lookup k rest := by
  have hb : (k == k') = false := by simpa using hk
  simp [List.lookup, hb]

theorem lookup_regUpdate (r : Registry) (p : Path) (f : NS → NS) (k : Path) :
    List.lookup k (regUpdate r p f) =
      if k = p then (List.lookup k r).map f else List.lookup k r := by
  induction r with
  | nil => simp [regUpdate]
  | cons e rest ih =>
    obtain ⟨k', v⟩ := e
    simp only [regUpdate, List.map_cons]
    by_cases hkp : k' = p
    · rw [if_pos hkp]
      by_cases hk : k = k'
      · subst hk
        rw [lookup_cons_self, lookup_cons_self, if_pos hkp]
        rfl
      · rw [lookup_cons_of_ne k k' hk, lookup_cons_of_ne k k' hk]
        simpa [regUpdate] using ih
    · rw [if_neg hkp]
      by_cases hk : k = k'
      · subst hk
        rw [lookup_cons_self, lookup_cons_self, if_neg hkp]
      · rw [lookup_cons_of_ne k k' hk, lookup_cons_of_ne k k' hk]
        simpa [regUpdate] using ih

theorem regKeys_regUpdate (r : Registry) (p : Path) (f : NS → NS) :
    regKeys (regUpdate r p f) = regKeys r := by
  induction r with
  | nil => rfl
  | cons e rest ih =>
    by_cases hkp : e.fst = p
    · simp only [regUpdate, regKeys, List.map_cons, if_pos hkp] at *
      rw [ih]
    · simp only [regUpdate, regKeys, List.map_cons, if_neg hkp] at *
      rw [ih]

theorem mem_regKeys_iff_lookup (r : Registry) (k : Path) :
    k ∈ regKeys r ↔ ∃ v, List.lookup k r = some v := by
  induction r with
  | nil => simp [regKeys]
  | cons e rest ih =>
    obtain ⟨k', v⟩ := e
    by_cases hk : k = k'
    · subst hk
      simp [regKeys, lookup_cons_self]
    · simp only [regKeys, List.map_cons, List.mem_cons, lookup_cons_of_ne k k' hk]
      simpa [regKeys, hk] using ih

theorem mem_addProviderPath (ns : NS) (x q : Path) :
    q ∈ (addProviderPath ns x).providers ↔ q ∈ ns.providers ∨ q = x := by
  unfold addProviderPath
  split
  · rename_i hx
    constructor
    · exact fun h => Or.inl h
    · rintro (h | rfl)
      · exact h
      · exact hx
  · simp

theorem mem_foldl_addProviderPath (L : List Path) :
    ∀ (ns : NS) (q : Path),
      q ∈ (L.foldl addProviderPath ns).providers ↔ q ∈ ns.providers ∨ q ∈ L := by
  induction L with
  | nil => simp
  | cons x L ih =>
    intro ns q
    simp only [List.foldl_cons, ih, mem_addProviderPath, List.mem_cons]
    tauto

theorem mem_ancChain_iff (a b : Path) :
    a ∈ ancChain b ↔ ∃ k, k < b.length ∧ a = b.take k := by
  simp only [ancChain, List.mem_map, List.mem_reverse, List.mem_range]
  constructor
  · rintro ⟨k, hk, rfl⟩; exact ⟨k, hk, rfl⟩
  · rintro ⟨k, hk, rfl⟩; exact ⟨k, hk, rfl⟩

theorem mem_ancChain_iff_proper (a b : Path) :
    a ∈ ancChain b ↔ a <+: b ∧ a ≠ b := by
  rw [mem_ancChain_iff]
  constructor
  · rintro ⟨k, hk, rfl⟩
    refine ⟨ List.take_prefix k b, ?_⟩
    intro hab
    have := congrArg List.length hab
    simp [List.length_take] at this
    omega
  · rintro ⟨hpre, hne⟩
    have htake := List.prefix_iff_eq_take.mp hpre
    refine ⟨a.length, ?_, htake⟩
    by_contra hlen
    push_neg at hlen
    have heq : a.length = b.length := le_antisymm hpre.length_le hlen
    apply hne
    rw [htake, heq, List.take_length]

theorem ancChain_trans {a b c : Path} (hab : a ∈ ancChain b) (hbc : b ∈ ancChain c) :
    a ∈ ancChain c := by
  rw [mem_ancChain_iff_proper] at *
  obtain ⟨h1, h1ne⟩ := hab
  obtain ⟨h2, h2ne⟩ := hbc
  refine ⟨h1.trans h2, ?_⟩
  intro hac
  subst hac
  exact h1ne (h1.eq_of_length (le_antisymm h1.length_le h2.length_le))



/-- `q` may sit in namespace `k`'s provider set only if it is one of `k`'s own
providers or one of a strict-ancestor namespace's own providers (with "own"
read off the original registry `reg`). -/
def InBound (reg : Registry) (k q : Path) : Prop :=
  (∃ ns0, List.lookup k reg = some ns0 ∧ q ∈ ns0.providers) ∨
    ∃ a nsa, a ∈ ancChain k ∧ List.lookup a reg = some nsa ∧ q ∈ nsa.providers

def UpperInv (reg cur : Registry) : Prop :=
  ∀ k nsk, List.lookup k cur = some nsk → ∀ q ∈ nsk.providers, InBound reg k q

def LowerInv (reg cur : Registry) : Prop :=
  ∀ k ns0 nsk, List.lookup k reg = some ns0 → List.lookup k cur = some nsk →
    ∀ q ∈ ns0.providers, q ∈ nsk.providers

theorem lookup_inheritStep_ne (b : Path) (acc : Registry) (a k : Path) (hk : k ≠ b) :
    List.lookup k (inheritStep b acc a) = List.lookup k acc := by
  unfold inheritStep
  cases h : List.lookup a acc with
  | none => rfl
  | some ansNS => rw [lookup_regUpdate, if_neg hk]

theorem lookup_inheritStep_b (b : Path) (acc : Registry) (a : Path) (nsb : NS)
    (hb : List.lookup b acc = some nsb) :
    ∃ nsb', List.lookup b (inheritStep b acc a) = some nsb' ∧
      (∀ q ∈ nsb.providers, q ∈ nsb'.providers) ∧
      (∀ q ∈ nsb'.providers, q ∈ nsb.providers ∨
        ∃ nsa, List.lookup a acc = some nsa ∧ q ∈ nsa.providers) := by
  unfold inheritStep
  cases h : List.lookup a acc with
  | none => exact ⟨nsb, hb, fun q hq => hq, fun q hq => Or.inl hq⟩
  | some ansNS =>
    refine ⟨ansNS.providers.foldl addProviderPath nsb, ?_, ?_, ?_⟩
    · rw [lookup_regUpdate, if_pos rfl, hb]
      rfl
    · intro q hq
      rw [mem_foldl_addProviderPath]
      exact Or.inl hq
    · intro q hq
      rw [mem_foldl_addProviderPath] at hq
      rcases hq with hq | hq
      · exact Or.inl hq
      · exact Or.inr ⟨ansNS, rfl, hq⟩

theorem lookup_inheritStep_b_hit (b : Path) (acc : Registry) (a : Path) (nsa nsb : NS)
    (ha : List.lookup a acc = some nsa) (hb : List.lookup b acc = some nsb) :
    List.lookup b (inheritStep b acc a) =
      some (nsa.providers.foldl addProviderPath nsb) := by
  unfold inheritStep
  rw [ha, lookup_regUpdate, if_pos rfl, hb]
  rfl

theorem regKeys_inheritStep (b : Path) (acc : Registry) (a : Path) :
    regKeys (inheritStep b acc a) = regKeys acc := by
  unfold inheritStep
  cases h : List.lookup a acc with
  | none => rfl
  | some ansNS => rw [regKeys_regUpdate]

theorem lookup_foldl_inheritStep_ne (b : Path) (L : List Path) :
    ∀ cur k, k ≠ b → List.lookup k (L.foldl (inheritStep b) cur) = List.lookup k cur := by
  induction L with
  | nil => intro cur k hk; rfl
  | cons a L ih =>
    intro cur k hk
    simp only [List.foldl_cons]
    rw [ih _ k hk, lookup_inheritStep_ne b cur a k hk]

theorem regKeys_foldl_inheritStep (b : Path) (L : List Path) :
    ∀ cur, regKeys (L.foldl (inheritStep b) cur) = regKeys cur := by
  induction L with
  | nil => intro cur; rfl
  | cons a L ih =>
    intro cur
    simp only [List.foldl_cons]
    rw [ih, regKeys_inheritStep]

theorem lookup_foldl_inheritStep_none (b : Path) (L : List Path) :
    ∀ cur, List.lookup b cur = none →
      List.lookup b (L.foldl (inheritStep b) cur) = none := by
  induction L with
  | nil => intro cur h; exact h
  | cons a L ih =>
    intro cur h
    simp only [List.foldl_cons]
    refine ih _ ?_
    unfold inheritStep
    cases ha : List.lookup a cur with
    | none => exact h
    | some ansNS => rw [lookup_regUpdate, if_pos rfl, h]; rfl

theorem lookup_foldl_inheritStep_b_mono (b : Path) (L : List Path) :
    ∀ cur nsb, List.lookup b cur = some nsb →
      ∃ nsb', List.lookup b (L.foldl (inheritStep b) cur) = some nsb' ∧
        ∀ q ∈ nsb.providers, q ∈ nsb'.providers := by
  induction L with
  | nil => intro cur nsb hb; exact ⟨nsb, hb, fun q hq => hq⟩
  | cons a L ih =>
    intro cur nsb hb
    simp only [List.foldl_cons]
    obtain ⟨ns1, h1, hm1, _⟩ := lookup_inheritStep_b b cur a nsb hb
    obtain ⟨ns2, h2, hm2⟩ := ih _ ns1 h1
    exact ⟨ns2, h2, fun q hq => hm2 q (hm1 q hq)⟩

theorem lookup_foldl_inheritStep_collect (b : Path) (L : List Path) :
    ∀ cur a nsa nsb, a ∈ L → a ≠ b → List.lookup a cur = some nsa →
      List.lookup b cur = some nsb →
      ∃ nsb', List.lookup b (L.foldl (inheritStep b) cur) = some nsb' ∧
        ∀ q ∈ nsa.providers, q ∈ nsb'.providers := by
  induction L with
  | nil =>
    intro cur a nsa nsb ha
    exact absurd ha (List.not_mem_nil a)
  | cons x L ih =>
    intro cur a nsa nsb ha hab hla hlb
    simp only [List.foldl_cons]
    rcases List.mem_cons.mp ha with rfl | ha'
    · have hstep := lookup_inheritStep_b_hit b cur a nsa nsb hla hlb
      obtain ⟨ns2, h2, hm2⟩ := lookup_foldl_inheritStep_b_mono b L _ _ hstep
      refine ⟨ns2, h2, fun q hq => hm2 q ?_⟩
      rw [mem_foldl_addProviderPath]
      exact Or.inr hq
    · obtain ⟨ns1, h1, _, _⟩ := lookup_inheritStep_b b cur x nsb hlb
      have hla' : List.lookup a (inheritStep b cur x) = some nsa := by
        rw [lookup_inheritStep_ne b cur x a hab]
        exact hla
      exact ih _ a nsa ns1 ha' hab hla' h1



theorem upperInv_inheritStep (reg : Registry) (b : Path) (acc : Registry) (a : Path)
    (ha : a ∈ ancChain b) (hU : UpperInv reg acc) : UpperInv reg (inheritStep b acc a) := by
  intro k nsk hk q hq
  by_cases hkb : k = b
  · subst hkb
    unfold inheritStep at hk
    cases hla : List.lookup a acc with
    | none =>
      rw [hla] at hk
      exact hU k nsk hk q hq
    | some ansNS =>
      rw [hla, lookup_regUpdate, if_pos rfl] at hk
      cases hlb : List.lookup k acc with
      | none =>
        rw [hlb] at hk
        exact Option.noConfusion hk
      | some nsb =>
        rw [hlb] at hk
        injection hk with hk
        subst hk
        rw [mem_foldl_addProviderPath] at hq
        rcases hq with hq | hq
        · exact hU k nsb hlb q hq
        · rcases hU a ansNS hla q hq with ⟨ns0, h0, hq'⟩ | ⟨a', nsa', hanc', ha', hq'⟩
          · exact Or.inr ⟨a, ns0, ha, h0, hq'⟩
          · exact Or.inr ⟨a', nsa', ancChain_trans hanc' ha, ha', hq'⟩
  · rw [lookup_inheritStep_ne b acc a k hkb] at hk
    exact hU k nsk hk q hq

theorem upperInv_foldl_inheritStep (reg : Registry) (b : Path) (L : List Path) :
    ∀ cur, (∀ x ∈ L, x ∈ ancChain b) → UpperInv reg cur →
      UpperInv reg (L.foldl (inheritStep b) cur) := by
  induction L with
  | nil => intro cur _ hU; exact hU
  | cons x L ih =>
    intro cur hL hU
    simp only [List.foldl_cons]
    exact ih _ (fun y hy => hL y (List.mem_cons_of_mem x hy))
      (upperInv_inheritStep reg b cur x (hL x (List.mem_cons_self x L)) hU)

theorem upperInv_inheritOne (reg cur : Registry) (b : Path) (hU : UpperInv reg cur) :
    UpperInv reg (inheritOne cur b) :=
  upperInv_foldl_inheritStep reg b (ancChain b) cur (fun _ hx => hx) hU

theorem lookup_inheritOne_ne (cur : Registry) (b k : Path) (hk : k ≠ b) :
    List.lookup k (inheritOne cur b) = List.lookup k cur :=
  lookup_foldl_inheritStep_ne b (ancChain b) cur k hk

theorem lookup_inheritOne_mono (cur : Registry) (b : Path) (nsb : NS)
    (hb : List.lookup b cur = some nsb) :
    ∃ nsb', List.lookup b (inheritOne cur b) = some nsb' ∧
      ∀ q ∈ nsb.providers, q ∈ nsb'.providers :=
  lookup_foldl_inheritStep_b_mono b (ancChain b) cur nsb hb

theorem regKeys_inheritOne (cur : Registry) (b : Path) :
    regKeys (inheritOne cur b) = regKeys cur :=
  regKeys_foldl_inheritStep b (ancChain b) cur

theorem lowerInv_inheritOne (reg cur : Registry) (b : Path) (hL : LowerInv reg cur) :
    LowerInv reg (inheritOne cur b) := by
  intro k ns0 nsk h0 hk q hq
  by_cases hkb : k = b
  · subst hkb
    cases hlb : List.lookup k cur with
    | none =>
      unfold inheritOne at hk
      rw [lookup_foldl_inheritStep_none k (ancChain k) cur hlb] at hk
      exact Option.noConfusion hk
    | some nsb =>
      obtain ⟨nsb', hb', hmono⟩ := lookup_inheritOne_mono cur k nsb hlb
      rw [hb'] at hk
      injection hk with hk
      subst hk
      exact hmono q (hL k ns0 nsb h0 hlb q hq)
  · rw [lookup_inheritOne_ne cur b k hkb] at hk
    exact hL k ns0 nsk h0 hk q hq

theorem upperInv_foldl_inheritOne (reg : Registry) (KL : List Path) :
    ∀ cur, UpperInv reg cur → UpperInv reg (KL.foldl inheritOne cur) := by
  induction KL with
  | nil => intro cur hU; exact hU
  | cons x KL ih =>
    intro cur hU
    simp only [List.foldl_cons]
    exact ih _ (upperInv_inheritOne reg cur x hU)

theorem lowerInv_foldl_inheritOne (reg : Registry) (KL : List Path) :
    ∀ cur, LowerInv reg cur → LowerInv reg (KL.foldl inheritOne cur) := by
  induction KL with
  | nil => intro cur hL; exact hL
  | cons x KL ih =>
    intro cur hL
    simp only [List.foldl_cons]
    exact ih _ (lowerInv_inheritOne reg cur x hL)

theorem regKeys_foldl_inheritOne (KL : List Path) :
    ∀ cur, regKeys (KL.foldl inheritOne cur) = regKeys cur := by
  induction KL with
  | nil => intro cur; rfl
  | cons x KL ih =>
    intro cur
    simp only [List.foldl_cons]
    rw [ih, regKeys_inheritOne]

theorem lookup_foldl_inheritOne_mono (b : Path) (KL : List Path) :
    ∀ cur nsb, List.lookup b cur = some nsb →
      ∃ nsb', List.lookup b (KL.foldl inheritOne cur) = some nsb' ∧
        ∀ q ∈ nsb.providers, q ∈ nsb'.providers := by
  induction KL with
  | nil => intro cur nsb hb; exact ⟨nsb, hb, fun q hq => hq⟩
  | cons x KL ih =>
    intro cur nsb hb
    simp only [List.foldl_cons]
    by_cases hxb : x = b
    · subst hxb
      obtain ⟨ns1, h1, hm1⟩ := lookup_inheritOne_mono cur x nsb hb
      obtain ⟨ns2, h2, hm2⟩ := ih _ ns1 h1
      exact ⟨ns2, h2, fun q hq => hm2 q (hm1 q hq)⟩
    · refine ih _ nsb ?_
      rw [lookup_inheritOne_ne cur x b (fun h => hxb h.symm)]
      exact hb



theorem processed_lower (reg : Registry) (b : Path) (hbk : b ∈ regKeys reg) :
    ∀ (KL : List Path) (cur : Registry), b ∈ KL → regKeys cur = regKeys reg → LowerInv reg cur →
      ∃ nsb', List.lookup b (KL.foldl inheritOne cur) = some nsb' ∧
        (∀ ns0, List.lookup b reg = some ns0 → ∀ q ∈ ns0.providers, q ∈ nsb'.providers) ∧
        (∀ a nsa0, a ∈ ancChain b → List.lookup a reg = some nsa0 →
          ∀ q ∈ nsa0.providers, q ∈ nsb'.providers) := by
  intro KL
  induction KL with
  | nil => intro cur hmem; exact absurd hmem (List.not_mem_nil b)
  | cons x KL ih =>
    intro cur hmem hkeys hLow
    simp only [List.foldl_cons]
    by_cases hxb : x = b
    · subst hxb
      obtain ⟨nsb, hnsb⟩ := (mem_regKeys_iff_lookup cur x).mp (hkeys ▸ hbk)
      obtain ⟨ns1, h1, hm1⟩ := lookup_inheritOne_mono cur x nsb hnsb
      obtain ⟨ns2, h2, hm2⟩ := lookup_foldl_inheritOne_mono x KL (inheritOne cur x) ns1 h1
      refine ⟨ns2, h2, ?_, ?_⟩
      · intro ns0 h0 q hq
        exact hm2 q (hm1 q (hLow x ns0 nsb h0 hnsb q hq))
      · intro a nsa0 haanc h0 q hq
        have hane : a ≠ x := ((mem_ancChain_iff_proper a x).mp haanc).2
        have hak : a ∈ regKeys reg := (mem_regKeys_iff_lookup reg a).mpr ⟨nsa0, h0⟩
        obtain ⟨nsa, hnsa⟩ := (mem_regKeys_iff_lookup cur a).mp (hkeys ▸ hak)
        obtain ⟨ns1', h1', hsub⟩ :=
          lookup_foldl_inheritStep_collect x (ancChain x) cur a nsa nsb haanc hane hnsa hnsb
        have hsame : ns1' = ns1 := by
          have hx : List.lookup x (inheritOne cur x) = some ns1' := h1'
          rw [h1] at hx
          injection hx with hx
          exact hx.symm
        subst hsame
        exact hm2 q (hsub q (hLow a nsa0 nsa h0 hnsa q hq))
    · have hmem' : b ∈ KL := by
        rcases List.mem_cons.mp hmem with h | h
        · exact absurd h.symm hxb
        · exact h
      exact ih (inheritOne cur x) hmem' (by rw [regKeys_inheritOne, hkeys])
        (lowerInv_inheritOne reg cur x hLow)

/-- Claim C5: for every namespace (a key `b` of the registry), the provider set
after the inheritance pass — the state read by the rewriter and the emitter —
consists of exactly the namespace's own providers and the providers of every
strict ancestor block (proper path prefix) that is itself a namespace; in
particular a nested namespace sees every enclosing namespace's providers, while
a provider declared only in a non-ancestor (for example inner) namespace never
enters the set. -/
theorem inheritAll_effective (reg : Registry) (b : Path) (ns ns0 : NS)
    (hall : List.lookup b (inheritAll reg) = some ns)
    (h0 : List.lookup b reg = some ns0) (q : Path) :
    q ∈ ns.providers ↔
      q ∈ ns0.providers ∨
        ∃ a nsa, a ≠ b ∧ a <+: b ∧ List.lookup a reg = some nsa ∧ q ∈ nsa.providers := by
  constructor
  · intro hq
    have hU0 : UpperInv reg reg := fun k nsk hk q hq => Or.inl ⟨nsk, hk, hq⟩
    have hU : UpperInv reg (inheritAll reg) :=
      upperInv_foldl_inheritOne reg (regKeys reg) reg hU0
    rcases hU b ns hall q hq with ⟨ns0', h0', hq'⟩ | ⟨a, nsa, hanc, ha, hq'⟩
    · left
      rw [h0] at h0'
      injection h0' with h
      subst h
      exact hq'
    · right
      obtain ⟨hpre, hne⟩ := (mem_ancChain_iff_proper a b).mp hanc
      exact ⟨a, nsa, hne, hpre, ha, hq'⟩
  · intro hq
    have hbk : b ∈ regKeys reg := (mem_regKeys_iff_lookup reg b).mpr ⟨ns0, h0⟩
    have hL0 : LowerInv reg reg := by
      intro k n0 nk h0' hk' q hq
      rw [h0'] at hk'
      injection hk' with h
      subst h
      exact hq
    obtain ⟨nsb', hx, hown, hancs⟩ :=
      processed_lower reg b hbk (regKeys reg) reg hbk rfl hL0
    have hsame : ns = nsb' := by
      have hy : List.lookup b (inheritAll reg) = some nsb' := hx
      rw [hall] at hy
      exact Option.some.inj hy
    subst hsame
    rcases hq with hq | ⟨a, nsa, hne, hpre, ha, hq⟩
    · exact hown ns0 h0 q hq
    · exact hancs a nsa ((mem_ancChain_iff_proper a b).mpr ⟨hpre, hne⟩) ha q hq

/-- Witness for C5 on a concrete two-namespace registry: the program root
(providers `[[0]]`) and a nested block at path `[1]` (own provider `[[1,0]]`);
after inheritance the nested namespace's set contains the root's provider `[0]`
through the ancestor disjunct. -/
theorem inheritAll_effective_witness :
    ([0] : Path) ∈ (⟨[1, 0], [[1, 0], [0]]⟩ : NS).providers ↔
      ([0] : Path) ∈ ([[1, 0]] : List Path) ∨
        ∃ a nsa, a ≠ [1] ∧ a <+: [1] ∧
          List.lookup a ([([], ⟨[0], [[0]]⟩), ([1], ⟨[1, 0], [[1, 0]]⟩)] : Registry) =
            some nsa ∧ ([0] : Path) ∈ nsa.providers :=
  inheritAll_effective
    ([([], ⟨[0], [[0]]⟩), ([1], ⟨[1, 0], [[1, 0]]⟩)] : Registry)
    [1] ⟨[1, 0], [[1, 0], [0]]⟩ ⟨[1, 0], [[1, 0]]⟩ rfl rfl [0]




/-! ## Trait requests and emitted declarations: claim C6 -/

theorem slookup_cons_self (k : String) (v : String) (rest : Tab) :
    List.lookup k ((k, v) :: rest) = some v := by
  simp [List.lookup]

theorem slookup_cons_of_ne (k k' : String) (hk : k ≠ k') (v : String) (rest : Tab) :
    List.lookup k ((k', v) :: rest) = List.lookup k rest := by
  have hb : (k == k') = false := by simpa using hk
  simp [List.lookup, hb]

theorem slookup_append_of_none (l : Tab) (k : String) (v : String) :
    List.lookup k l = none → List.lookup k (l ++ [(k, v)]) = some v := by
  induction l with
  | nil => intro _; exact slookup_cons_self k v []
  | cons e rest ih =>
    obtain ⟨k', w⟩ := e
    intro h
    by_cases hk : k = k'
    · subst hk
      rw [slookup_cons_self] at h
      exact Option.noConfusion h
    · rw [slookup_cons_of_ne k k' hk] at h
      rw [List.cons_append, slookup_cons_of_ne k k' hk]
      exact ih h

/-- The trait names recorded in a `symbols` map, in insertion order. -/
def tabKeys (tab : Tab) : List String := tab.map Prod.fst

theorem slookup_none_iff (l : Tab) (k : String) :
    List.lookup k l = none ↔ k ∉ tabKeys l := by
  induction l with
  | nil => simp [tabKeys]
  | cons e rest ih =>
    obtain ⟨k', w⟩ := e
    by_cases hk : k = k'
    · subst hk
      simp [tabKeys, slookup_cons_self]
    · rw [slookup_cons_of_ne k k' hk]
      simp only [tabKeys, List.map_cons, List.mem_cons]
      constructor
      · intro h hmem
        rcases hmem with h' | h'
        · exact hk h'
        · exact (ih.mp h) h'
      · intro h
        exact ih.mpr fun h' => h (Or.inr h')

theorem slookup_some_mem (l : Tab) (k : String) (v : String)
    (h : List.lookup k l = some v) : k ∈ tabKeys l := by
  by_contra hmem
  rw [← slookup_none_iff] at hmem
  rw [h] at hmem
  exact Option.noConfusion hmem

/-- Memoization of `TraitNamespace.provideSymbol` (claim C6's first half): a
second request for the same trait name returns the identifier created by the
first and changes neither the `symbols` map nor the generator state. -/
theorem provideSymbol_memo (tab : Tab) (c : Nat) (sym : String) :
    provideSymbol (provideSymbol tab c sym).2.1 (provideSymbol tab c sym).2.2 sym =
      ((provideSymbol tab c sym).1, (provideSymbol tab c sym).2.1,
        (provideSymbol tab c sym).2.2) := by
  unfold provideSymbol
  cases h : List.lookup sym tab with
  | some id => simp [h]
  | none => simp [h, slookup_append_of_none tab sym (uidName sym c) h]

theorem provideSymbol_keys (tab : Tab) (c : Nat) (sym : String) :
    ∀ x, x ∈ tabKeys (provideSymbol tab c sym).2.1 ↔ x ∈ tabKeys tab ∨ x = sym := by
  intro x
  unfold provideSymbol
  cases h : List.lookup sym tab with
  | some id =>
    simp only
    constructor
    · exact fun hx => Or.inl hx
    · rintro (hx | rfl)
      · exact hx
      · exact slookup_some_mem tab x id h
  | none => simp [tabKeys]

theorem provideSymbol_nodup (tab : Tab) (c : Nat) (sym : String)
    (h : (tabKeys tab).Nodup) : (tabKeys (provideSymbol tab c sym).2.1).Nodup := by
  unfold provideSymbol
  cases hl : List.lookup sym tab with
  | some id => exact h
  | none =>
    have hns : sym ∉ tabKeys tab := (slookup_none_iff tab sym).mp hl
    simp only [tabKeys, List.map_append, List.map_cons, List.map_nil]
    rw [List.nodup_append]
    refine ⟨h, List.nodup_singleton sym, ?_⟩
    intro x hx hx2
    simp at hx2
    subst hx2
    exact hns hx

mutual
/-- The trait names requested by the rewriter inside an expression, in request
order: the literal property names of the non-computed trait-access markers. -/
def refNamesE : Expr → List String
  | .member (.member obj (.ident "_Straits") false) p true => refNamesE obj ++ refNamesE p
  | .member (.member obj (.ident "_Straits") false) (.ident sym) false =>
    refNamesE obj ++ [sym]
  | .member _ (.ident "_Straits") false => []
  | .member o p _ => refNamesE o ++ refNamesE p
  | .ident _ => []
  | .strLit _ => []
  | .tmpl _ es => refNamesEL es
  | .call f a => refNamesE f ++ refNamesEL a
  | .other _ ch => refNamesEL ch

def refNamesEL : ExprList → List String
  | .nil => []
  | .cons e es => refNamesE e ++ refNamesEL es
end

def refNamesDL : DeclList → List String
  | .nil => []
  | .cons _ init rest => refNamesE init ++ refNamesDL rest



mutual
theorem rewriteExpr_keys (e : Expr) : ∀ tab c e2 tab2 c2,
    rewriteExpr tab c e = .ok (e2, tab2, c2) →
      (∀ x, x ∈ tabKeys tab2 ↔ x ∈ tabKeys tab ∨ x ∈ refNamesE e) ∧
      ((tabKeys tab).Nodup → (tabKeys tab2).Nodup) := by
  cases e with
  | ident n =>
    intro tab c e2 tab2 c2 h
    by_cases hn : n = "_Straits"
    · simp only [rewriteExpr, if_pos hn] at h
      exact Except.noConfusion h
    · simp only [rewriteExpr, if_neg hn, Except.ok.injEq, Prod.mk.injEq] at h
      obtain ⟨-, h2, -⟩ := h
      subst h2
      simp [refNamesE]
  | strLit v =>
    intro tab c e2 tab2 c2 h
    simp only [rewriteExpr, Except.ok.injEq, Prod.mk.injEq] at h
    obtain ⟨-, h2, -⟩ := h
    subst h2
    simp [refNamesE]
  | tmpl qs es =>
    intro tab c e2 tab2 c2 h
    cases hr : rewriteExprList tab c es with
    | error err =>
      simp only [rewriteExpr, bind, Except.bind, hr] at h
      exact Except.noConfusion h
    | ok v =>
      simp only [rewriteExpr, bind, Except.bind, hr, Except.ok.injEq, Prod.mk.injEq] at h
      obtain ⟨-, h2, -⟩ := h
      subst h2
      obtain ⟨iha, ihb⟩ := rewriteExprList_keys es tab c v.1 v.2.1 v.2.2 hr
      exact ⟨fun x => by rw [iha x]; simp [refNamesE], ihb⟩
  | call f a =>
    intro tab c e2 tab2 c2 h
    cases hf : rewriteExpr tab c f with
    | error err =>
      simp only [rewriteExpr, bind, Except.bind, hf] at h
      exact Except.noConfusion h
    | ok v =>
      cases ha : rewriteExprList v.2.1 v.2.2 a with
      | error err =>
        simp only [rewriteExpr, bind, Except.bind, hf, ha] at h
        exact Except.noConfusion h
      | ok w =>
        simp only [rewriteExpr, bind, Except.bind, hf, ha, Except.ok.injEq,
          Prod.mk.injEq] at h
        obtain ⟨-, h2, -⟩ := h
        subst h2
        obtain ⟨iha, ihb⟩ := rewriteExpr_keys f tab c v.1 v.2.1 v.2.2 hf
        obtain ⟨iha2, ihb2⟩ := rewriteExprList_keys a v.2.1 v.2.2 w.1 w.2.1 w.2.2 ha
        refine ⟨fun x => ?_, fun hnd => ihb2 (ihb hnd)⟩
        rw [iha2 x, iha x]
        simp only [refNamesE, List.mem_append]
        tauto
  | other tg ch =>
    intro tab c e2 tab2 c2 h
    cases hr : rewriteExprList tab c ch with
    | error err =>
      simp only [rewriteExpr, bind, Except.bind, hr] at h
      exact Except.noConfusion h
    | ok v =>
      simp only [rewriteExpr, bind, Except.bind, hr, Except.ok.injEq, Prod.mk.injEq] at h
      obtain ⟨-, h2, -⟩ := h
      subst h2
      obtain ⟨iha, ihb⟩ := rewriteExprList_keys ch tab c v.1 v.2.1 v.2.2 hr
      exact ⟨fun x => by rw [iha x]; simp [refNamesE], ihb⟩
  | member o p comp =>
    intro tab c e2 tab2 c2 h
    rw [rewriteExpr.eq_def] at h
    split at h
    all_goals try (exfalso; simp_all; done)
    · -- computed trait access
      rename_i obj pp heq
      injection heq with h1 h2 h3
      subst h1; subst h2; subst h3
      cases hro : rewriteExpr tab c obj with
      | error err =>
        simp only [bind, Except.bind, hro] at h
        exact Except.noConfusion h
      | ok v =>
        cases hrp : rewriteExpr v.2.1 v.2.2 p with
        | error err =>
          simp only [bind, Except.bind, hro, hrp] at h
          exact Except.noConfusion h
        | ok w =>
          simp only [bind, Except.bind, hro, hrp, Except.ok.injEq, Prod.mk.injEq] at h
          obtain ⟨-, h2, -⟩ := h
          subst h2
          obtain ⟨iha, ihb⟩ := rewriteExpr_keys obj tab c v.1 v.2.1 v.2.2 hro
          obtain ⟨iha2, ihb2⟩ := rewriteExpr_keys p v.2.1 v.2.2 w.1 w.2.1 w.2.2 hrp
          refine ⟨fun x => ?_, fun hnd => ihb2 (ihb hnd)⟩
          rw [iha2 x, iha x]
          simp only [refNamesE, List.mem_append]
          tauto
    · -- non-computed trait access
      rename_i obj sym heq
      injection heq with h1 h2 h3
      subst h1; subst h2; subst h3
      cases hro : rewriteExpr tab c obj with
      | error err =>
        simp only [bind, Except.bind, hro] at h
        exact Except.noConfusion h
      | ok v =>
        rcases hps : provideSymbol v.2.1 v.2.2 sym with ⟨id, tabx, cx⟩
        simp only [bind, Except.bind, hro, hps, Except.ok.injEq, Prod.mk.injEq] at h
        obtain ⟨-, h2, -⟩ := h
        subst h2
        obtain ⟨iha, ihb⟩ := rewriteExpr_keys obj tab c v.1 v.2.1 v.2.2 hro
        have hkeys := provideSymbol_keys v.2.1 v.2.2 sym
        have hnd := provideSymbol_nodup v.2.1 v.2.2 sym
        rw [hps] at hkeys hnd
        refine ⟨fun x => ?_, fun hd => hnd (ihb hd)⟩
        have := hkeys x
        simp only at this
        rw [this, iha x]
        simp only [refNamesE, List.mem_append, List.mem_singleton]
        tauto
    · -- generic member expression
      rename_i hn1 hn2 hn3 heq
      injection heq with h1 h2 h3
      subst h1; subst h2; subst h3
      have hrn : refNamesE (.member o p comp) = refNamesE o ++ refNamesE p := by
        rw [refNamesE.eq_def]
        split
        · rename_i obj pp heq2
          exfalso
          injection heq2 with g1 g2 g3
          exact hn1 obj g1 g3
        · rename_i obj sym heq2
          exfalso
          injection heq2 with g1 g2 g3
          exact hn2 obj sym g1 g2 g3
        · rename_i heq2
          exfalso
          injection heq2 with g1 g2 g3
          exact hn3 g2 g3
        · rename_i heq2
          injection heq2 with g1 g2 g3
          rw [← g1, ← g2]
        all_goals (exfalso; rename_i heq2; exact Expr.noConfusion heq2)
      cases hro : rewriteExpr tab c o with
      | error err =>
        simp only [bind, Except.bind, hro] at h
        exact Except.noConfusion h
      | ok v =>
        cases hrp : rewriteExpr v.2.1 v.2.2 p with
        | error err =>
          simp only [bind, Except.bind, hro, hrp] at h
          exact Except.noConfusion h
        | ok w =>
          simp only [bind, Except.bind, hro, hrp, Except.ok.injEq, Prod.mk.injEq] at h
          obtain ⟨-, h2, -⟩ := h
          subst h2
          obtain ⟨iha, ihb⟩ := rewriteExpr_keys o tab c v.1 v.2.1 v.2.2 hro
          obtain ⟨iha2, ihb2⟩ := rewriteExpr_keys p v.2.1 v.2.2 w.1 w.2.1 w.2.2 hrp
          refine ⟨fun x => ?_, fun hnd => ihb2 (ihb hnd)⟩
          rw [iha2 x, iha x, hrn]
          simp only [List.mem_append]
          tauto

theorem rewriteExprList_keys (es : ExprList) : ∀ tab c es2 tab2 c2,
    rewriteExprList tab c es = .ok (es2, tab2, c2) →
      (∀ x, x ∈ tabKeys tab2 ↔ x ∈ tabKeys tab ∨ x ∈ refNamesEL es) ∧
      ((tabKeys tab).Nodup → (tabKeys tab2).Nodup) := by
  cases es with
  | nil =>
    intro tab c es2 tab2 c2 h
    simp only [rewriteExprList, Except.ok.injEq, Prod.mk.injEq] at h
    obtain ⟨-, h2, -⟩ := h
    subst h2
    simp [refNamesEL]
  | cons e es =>
    intro tab c es2 tab2 c2 h
    cases he : rewriteExpr tab c e with
    | error err =>
      simp only [rewriteExprList, bind, Except.bind, he] at h
      exact Except.noConfusion h
    | ok v =>
      cases hr : rewriteExprList v.2.1 v.2.2 es with
      | error err =>
        simp only [rewriteExprList, bind, Except.bind, he, hr] at h
        exact Except.noConfusion h
      | ok w =>
        simp only [rewriteExprList, bind, Except.bind, he, hr, Except.ok.injEq,
          Prod.mk.injEq] at h
        obtain ⟨-, h2, -⟩ := h
        subst h2
        obtain ⟨iha, ihb⟩ := rewriteExpr_keys e tab c v.1 v.2.1 v.2.2 he
        obtain ⟨iha2, ihb2⟩ := rewriteExprList_keys es v.2.1 v.2.2 w.1 w.2.1 w.2.2 hr
        refine ⟨fun x => ?_, fun hnd => ihb2 (ihb hnd)⟩
        rw [iha2 x, iha x]
        simp only [refNamesEL, List.mem_append]
        tauto
end



theorem rewriteDecls_keys (ds : DeclList) : ∀ tab c ds2 tab2 c2,
    rewriteDecls tab c ds = .ok (ds2, tab2, c2) →
      (∀ x, x ∈ tabKeys tab2 ↔ x ∈ tabKeys tab ∨ x ∈ refNamesDL ds) ∧
      ((tabKeys tab).Nodup → (tabKeys tab2).Nodup) := by
  induction ds with
  | nil =>
    intro tab c ds2 tab2 c2 h
    simp only [rewriteDecls, Except.ok.injEq, Prod.mk.injEq] at h
    obtain ⟨-, h2, -⟩ := h
    subst h2
    simp [refNamesDL]
  | cons id init rest ih =>
    intro tab c ds2 tab2 c2 h
    by_cases hid : id = "_Straits"
    · simp only [rewriteDecls, if_pos hid] at h
      exact Except.noConfusion h
    · cases he : rewriteExpr tab c init with
      | error err =>
        simp only [rewriteDecls, if_neg hid, bind, Except.bind, he] at h
        exact Except.noConfusion h
      | ok v =>
        cases hr : rewriteDecls v.2.1 v.2.2 rest with
        | error err =>
          simp only [rewriteDecls, if_neg hid, bind, Except.bind, he, hr] at h
          exact Except.noConfusion h
        | ok w =>
          simp only [rewriteDecls, if_neg hid, bind, Except.bind, he, hr, Except.ok.injEq,
            Prod.mk.injEq] at h
          obtain ⟨-, h2, -⟩ := h
          subst h2
          obtain ⟨iha, ihb⟩ := rewriteExpr_keys init tab c v.1 v.2.1 v.2.2 he
          obtain ⟨iha2, ihb2⟩ := ih v.2.1 v.2.2 w.1 w.2.1 w.2.2 hr
          refine ⟨fun x => ?_, fun hnd => ihb2 (ihb hnd)⟩
          rw [iha2 x, iha x]
          simp only [refNamesDL, List.mem_append]
          tauto

theorem tlookup_cons_self (k : Path) (v : Tab) (rest : Tabs) :
    List.lookup k ((k, v) :: rest) = some v := by
  simp [List.lookup]

theorem tlookup_cons_of_ne (k k' : Path) (hk : k ≠ k') (v : Tab) (rest : Tabs) :
    List.lookup k ((k', v) :: rest) = List.lookup k rest := by
  have hb : (k == k') = false := by simpa using hk
  simp [List.lookup, hb]

theorem tlookup_append (l : Tabs) (g k : Path) (tab : Tab) :
    List.lookup k (l ++ [(g, tab)]) =
      match List.lookup k l with
      | some t => some t
      | none => if k = g then some tab else none := by
  induction l with
  | nil =>
    by_cases hk : k = g
    · subst hk
      simp [List.lookup, tlookup_cons_self]
    · rw [List.nil_append, tlookup_cons_of_ne k g hk]
      simp [List.lookup, hk]
  | cons e rest ih =>
    obtain ⟨k', w⟩ := e
    by_cases hk : k = k'
    · subst hk
      simp [tlookup_cons_self]
    · rw [List.cons_append, tlookup_cons_of_ne k k' hk, tlookup_cons_of_ne k k' hk, ih]

theorem tlookup_update (tabs : Tabs) (g : Path) (tab : Tab) (k : Path) :
    List.lookup k (tabs.map fun e => if e.fst = g then (e.fst, tab) else e) =
      if k = g then (List.lookup k tabs).map (fun _ => tab) else List.lookup k tabs := by
  induction tabs with
  | nil => simp
  | cons e rest ih =>
    obtain ⟨k', v⟩ := e
    simp only [List.map_cons]
    by_cases hkp : k' = g
    · rw [if_pos hkp]
      by_cases hk : k = k'
      · subst hk
        rw [tlookup_cons_self, tlookup_cons_self, if_pos hkp]
        rfl
      · rw [tlookup_cons_of_ne k k' hk, tlookup_cons_of_ne k k' hk]
        exact ih
    · rw [if_neg hkp]
      by_cases hk : k = k'
      · subst hk
        rw [tlookup_cons_self, tlookup_cons_self, if_neg hkp]
      · rw [tlookup_cons_of_ne k k' hk, tlookup_cons_of_ne k k' hk]
        exact ih

theorem tabsGet_tabsSet_self (tabs : Tabs) (g : Path) (tab : Tab) :
    tabsGet (tabsSet tabs g tab) g = tab := by
  unfold tabsSet tabsGet
  cases hl : List.lookup g tabs with
  | some t => rw [tlookup_update, if_pos rfl, hl]; rfl
  | none => rw [tlookup_append, hl]; simp

theorem tabsGet_tabsSet_ne (tabs : Tabs) (g g' : Path) (tab : Tab) (h : g' ≠ g) :
    tabsGet (tabsSet tabs g tab) g' = tabsGet tabs g' := by
  unfold tabsSet tabsGet
  cases hl : List.lookup g tabs with
  | some t => rw [tlookup_update, if_neg h]
  | none =>
    rw [tlookup_append]
    cases hl' : List.lookup g' tabs with
    | some t => rfl
    | none => simp [h]

mutual
/-- The trait names requested from the namespace anchored at block `g` while
the rewriter walks statement `s` at path `p` under governing namespace `gov`:
the names of the non-computed trait accesses in `g`'s governed region. -/
def refNamesS (keys : List Path) (gov : Option Path) (g : Path) (p : Path) : Stmt → List String
  | .exprStmt e => if gov = some g then refNamesE e else []
  | .labeled _ b => refNamesS keys gov g (p ++ [0]) b
  | .block ss => refNamesSL keys (if p ∈ keys then some p else gov) g p 0 ss
  | .varDecl _ ds => if gov = some g then refNamesDL ds else []
  | .getSymbolDecl _ => []
  | .other _ es ss =>
    (if gov = some g then refNamesEL es else []) ++ refNamesSL keys gov g p 0 ss

def refNamesSL (keys : List Path) (gov : Option Path) (g : Path) (pp : Path) (i : Nat) :
    StmtList → List String
  | .nil => []
  | .cons s rest =>
    refNamesS keys gov g (pp ++ [i]) s ++ refNamesSL keys gov g pp (i + 1) rest
end

theorem rewriteUnder_keys (gov : Option Path) (st : RwSt) (e : Expr) (e2 : Expr)
    (st2 : RwSt) (h : rewriteUnder gov st e = .ok (e2, st2)) (g : Path) :
    (∀ x, x ∈ tabKeys (tabsGet st2.tabs g) ↔
      x ∈ tabKeys (tabsGet st.tabs g) ∨ x ∈ (if gov = some g then refNamesE e else [])) ∧
    ((tabKeys (tabsGet st.tabs g)).Nodup → (tabKeys (tabsGet st2.tabs g)).Nodup) := by
  cases gov with
  | none =>
    simp only [rewriteUnder, Except.ok.injEq, Prod.mk.injEq] at h
    obtain ⟨-, h2⟩ := h
    subst h2
    simp
  | some gv =>
    cases hr : rewriteExpr (tabsGet st.tabs gv) st.counter e with
    | error err =>
      simp only [rewriteUnder, bind, Except.bind, hr] at h
      exact Except.noConfusion h
    | ok v =>
      simp only [rewriteUnder, bind, Except.bind, hr, Except.ok.injEq, Prod.mk.injEq] at h
      obtain ⟨-, h2⟩ := h
      subst h2
      obtain ⟨iha, ihb⟩ := rewriteExpr_keys e (tabsGet st.tabs gv) st.counter v.1 v.2.1 v.2.2 hr
      by_cases hg : g = gv
      · subst hg
        simp only [tabsGet_tabsSet_self]
        constructor
        · intro x
          rw [iha x]
          simp
        · exact ihb
      · simp only [tabsGet_tabsSet_ne st.tabs gv g v.2.1 hg]
        have hne : ¬(some gv = some g) := fun hh => hg (Option.some.inj hh).symm
        constructor
        · intro x
          rw [if_neg hne]
          simp
        · exact fun hd => hd



theorem tabsSet_keys_step (st : RwSt) (gv : Path) (tab2 : Tab) (names : List String)
    (hiff : ∀ x, x ∈ tabKeys tab2 ↔ x ∈ tabKeys (tabsGet st.tabs gv) ∨ x ∈ names)
    (hnd : (tabKeys (tabsGet st.tabs gv)).Nodup → (tabKeys tab2).Nodup) (g : Path) :
    (∀ x, x ∈ tabKeys (tabsGet (tabsSet st.tabs gv tab2) g) ↔
      x ∈ tabKeys (tabsGet st.tabs g) ∨ x ∈ (if some gv = some g then names else [])) ∧
    ((tabKeys (tabsGet st.tabs g)).Nodup →
      (tabKeys (tabsGet (tabsSet st.tabs gv tab2) g)).Nodup) := by
  by_cases hg : g = gv
  · subst hg
    simp only [tabsGet_tabsSet_self]
    exact ⟨fun x => by rw [hiff x]; simp, hnd⟩
  · have hne : ¬(some gv = some g) := fun hh => hg (Option.some.inj hh).symm
    simp only [tabsGet_tabsSet_ne st.tabs gv g tab2 hg]
    exact ⟨fun x => by rw [if_neg hne]; simp, fun hd => hd⟩

mutual
theorem rewriteStmt_keys (s : Stmt) : ∀ keys gov p st s2 st2,
    rewriteStmt keys gov p st s = .ok (s2, st2) → ∀ g,
      (∀ x, x ∈ tabKeys (tabsGet st2.tabs g) ↔
        x ∈ tabKeys (tabsGet st.tabs g) ∨ x ∈ refNamesS keys gov g p s) ∧
      ((tabKeys (tabsGet st.tabs g)).Nodup → (tabKeys (tabsGet st2.tabs g)).Nodup) := by
  cases s with
  | exprStmt e =>
    intro keys gov p st s2 st2 h g
    cases hr : rewriteUnder gov st e with
    | error err =>
      simp only [rewriteStmt, bind, Except.bind, hr] at h
      exact Except.noConfusion h
    | ok v =>
      simp only [rewriteStmt, bind, Except.bind, hr, Except.ok.injEq, Prod.mk.injEq] at h
      obtain ⟨-, h2⟩ := h
      subst h2
      exact rewriteUnder_keys gov st e v.1 v.2 hr g
  | labeled l b =>
    intro keys gov p st s2 st2 h g
    by_cases hc : gov.isSome ∧ l = "_Straits"
    · simp only [rewriteStmt, if_pos hc] at h
      exact Except.noConfusion h
    · cases hr : rewriteStmt keys gov (p ++ [0]) st b with
      | error err =>
        simp only [rewriteStmt, if_neg hc, bind, Except.bind, hr] at h
        exact Except.noConfusion h
      | ok v =>
        simp only [rewriteStmt, if_neg hc, bind, Except.bind, hr, Except.ok.injEq,
          Prod.mk.injEq] at h
        obtain ⟨-, h2⟩ := h
        subst h2
        exact rewriteStmt_keys b keys gov (p ++ [0]) st v.1 v.2 hr g
  | block ss =>
    intro keys gov p st s2 st2 h g
    cases hr : rewriteStmts keys (if p ∈ keys then some p else gov) p 0 st ss with
    | error err =>
      simp only [rewriteStmt, bind, Except.bind, hr] at h
      exact Except.noConfusion h
    | ok v =>
      simp only [rewriteStmt, bind, Except.bind, hr, Except.ok.injEq, Prod.mk.injEq] at h
      obtain ⟨-, h2⟩ := h
      subst h2
      exact rewriteStmts_keys ss keys _ p 0 st v.1 v.2 hr g
  | varDecl kind ds =>
    intro keys gov p st s2 st2 h g
    cases gov with
    | none =>
      simp only [rewriteStmt, Except.ok.injEq, Prod.mk.injEq] at h
      obtain ⟨-, h2⟩ := h
      subst h2
      simp [refNamesS]
    | some gv =>
      cases hr : rewriteDecls (tabsGet st.tabs gv) st.counter ds with
      | error err =>
        simp only [rewriteStmt, bind, Except.bind, hr] at h
        exact Except.noConfusion h
      | ok v =>
        simp only [rewriteStmt, bind, Except.bind, hr, Except.ok.injEq, Prod.mk.injEq] at h
        obtain ⟨-, h2⟩ := h
        subst h2
        obtain ⟨iha, ihb⟩ :=
          rewriteDecls_keys ds (tabsGet st.tabs gv) st.counter v.1 v.2.1 v.2.2 hr
        exact tabsSet_keys_step st gv v.2.1 (refNamesDL ds) iha ihb g
  | getSymbolDecl n =>
    intro keys gov p st s2 st2 h g
    by_cases hc : gov.isSome ∧ n = "_Straits"
    · simp only [rewriteStmt, if_pos hc] at h
      exact Except.noConfusion h
    · simp only [rewriteStmt, if_neg hc, Except.ok.injEq, Prod.mk.injEq] at h
      obtain ⟨-, h2⟩ := h
      subst h2
      simp [refNamesS]
  | other tg es ss =>
    intro keys gov p st s2 st2 h g
    cases gov with
    | none =>
      cases hr : rewriteStmts keys none p 0 st ss with
      | error err =>
        simp only [rewriteStmt, bind, Except.bind, pure, Except.pure, hr] at h
        exact Except.noConfusion h
      | ok v =>
        simp only [rewriteStmt, bind, Except.bind, pure, Except.pure, hr, Except.ok.injEq,
          Prod.mk.injEq] at h
        obtain ⟨-, h2⟩ := h
        subst h2
        obtain ⟨iha, ihb⟩ := rewriteStmts_keys ss keys none p 0 st v.1 v.2 hr g
        refine ⟨fun x => ?_, ihb⟩
        rw [iha x]
        simp [refNamesS]
    | some gv =>
      cases he : rewriteExprList (tabsGet st.tabs gv) st.counter es with
      | error err =>
        simp only [rewriteStmt, bind, Except.bind, pure, Except.pure, he] at h
        exact Except.noConfusion h
      | ok w =>
        cases hr : rewriteStmts keys (some gv) p 0
            (⟨w.2.2, tabsSet st.tabs gv w.2.1⟩ : RwSt) ss with
        | error err =>
          simp only [rewriteStmt, bind, Except.bind, pure, Except.pure, he, hr] at h
          exact Except.noConfusion h
        | ok v =>
          simp only [rewriteStmt, bind, Except.bind, pure, Except.pure, he, hr,
            Except.ok.injEq, Prod.mk.injEq] at h
          obtain ⟨-, h2⟩ := h
          subst h2
          obtain ⟨iha, ihb⟩ :=
            rewriteExprList_keys es (tabsGet st.tabs gv) st.counter w.1 w.2.1 w.2.2 he
          obtain ⟨imid, imidnd⟩ :=
            tabsSet_keys_step st gv w.2.1 (refNamesEL es) iha ihb g
          obtain ⟨iha2, ihb2⟩ :=
            rewriteStmts_keys ss keys (some gv) p 0 _ v.1 v.2 hr g
          refine ⟨fun x => ?_, fun hnd => ihb2 (imidnd hnd)⟩
          rw [iha2 x]
          simp only [RwSt.tabs] at imid ⊢
          rw [imid x]
          simp only [refNamesS, List.mem_append]
          tauto

theorem rewriteStmts_keys (ss : StmtList) : ∀ keys gov pp i st ss2 st2,
    rewriteStmts keys gov pp i st ss = .ok (ss2, st2) → ∀ g,
      (∀ x, x ∈ tabKeys (tabsGet st2.tabs g) ↔
        x ∈ tabKeys (tabsGet st.tabs g) ∨ x ∈ refNamesSL keys gov g pp i ss) ∧
      ((tabKeys (tabsGet st.tabs g)).Nodup → (tabKeys (tabsGet st2.tabs g)).Nodup) := by
  cases ss with
  | nil =>
    intro keys gov pp i st ss2 st2 h g
    simp only [rewriteStmts, Except.ok.injEq, Prod.mk.injEq] at h
    obtain ⟨-, h2⟩ := h
    subst h2
    simp [refNamesSL]
  | cons s rest =>
    intro keys gov pp i st ss2 st2 h g
    cases hs : rewriteStmt keys gov (pp ++ [i]) st s with
    | error err =>
      simp only [rewriteStmts, bind, Except.bind, hs] at h
      exact Except.noConfusion h
    | ok v =>
      cases hr : rewriteStmts keys gov pp (i + 1) v.2 rest with
      | error err =>
        simp only [rewriteStmts, bind, Except.bind, hs, hr] at h
        exact Except.noConfusion h
      | ok w =>
        simp only [rewriteStmts, bind, Except.bind, hs, hr, Except.ok.injEq,
          Prod.mk.injEq] at h
        obtain ⟨-, h2⟩ := h
        subst h2
        obtain ⟨iha, ihb⟩ := rewriteStmt_keys s keys gov (pp ++ [i]) st v.1 v.2 hs g
        obtain ⟨iha2, ihb2⟩ := rewriteStmts_keys rest keys gov pp (i + 1) v.2 w.1 w.2 hr g
        refine ⟨fun x => ?_, fun hnd => ihb2 (ihb hnd)⟩
        rw [iha2 x, iha x]
        simp only [refNamesSL, List.mem_append]
        tauto
end



/-- The trait names requested from the namespace anchored at block `g` over a
whole unit. -/
def refNamesProgram (keys : List Path) (g : Path) (prog : StmtList) : List String :=
  refNamesSL keys (if ([] : Path) ∈ keys then some [] else none) g [] 0 prog

/-- The binder identifiers of a declarator list. -/
def declBinds : DeclList → List String
  | .nil => []
  | .cons id _ rest => id :: declBinds rest

theorem declBinds_declListOfTab (gsName : String) (pexprs : List Expr) :
    ∀ tab : Tab, declBinds (declListOfTab gsName pexprs tab) = tab.map Prod.snd := by
  intro tab
  induction tab with
  | nil => rfl
  | cons e rest ih =>
    obtain ⟨name, id⟩ := e
    simp only [declListOfTab, declBinds, List.map_cons, ih]

/-- Claim C6: (a) `provideSymbol` is memoized — a repeated request for a trait
name returns the identifier created the first time, with the `symbols` map and
generator unchanged, so each distinct name maps to exactly one generated
identifier reused for every occurrence; (b) after the rewriter runs over a
unit (started, as in the pass, with an empty map), the `symbols` map of each
namespace `g` records exactly the trait names referenced by non-computed trait
accesses in `g`'s governed (non-nested) subtree, each name exactly once;
(c) `finalize` emits exactly one declarator per `symbols` entry, binding that
entry's generated identifier — never a declaration for an unreferenced name,
never two for the same name. -/
theorem namespace_requests_exact :
    (∀ (tab : Tab) (c : Nat) (sym : String),
      provideSymbol (provideSymbol tab c sym).2.1 (provideSymbol tab c sym).2.2 sym =
        ((provideSymbol tab c sym).1, (provideSymbol tab c sym).2.1,
          (provideSymbol tab c sym).2.2)) ∧
    (∀ (prog : StmtList) (keys : List Path) (prog2 : StmtList) (st2 : RwSt),
      rewriteProgram keys ⟨1, []⟩ prog = .ok (prog2, st2) → ∀ g,
        (∀ x, x ∈ tabKeys (tabsGet st2.tabs g) ↔ x ∈ refNamesProgram keys g prog) ∧
        (tabKeys (tabsGet st2.tabs g)).Nodup) ∧
    (∀ (gsName : String) (pexprs : List Expr) (tab : Tab),
      declBinds (declListOfTab gsName pexprs tab) = tab.map Prod.snd) := by
  refine ⟨provideSymbol_memo, ?_, declBinds_declListOfTab⟩
  intro prog keys prog2 st2 h g
  obtain ⟨iha, ihb⟩ :=
    rewriteStmts_keys prog keys (if ([] : Path) ∈ keys then some [] else none) [] 0
      ⟨1, []⟩ prog2 st2 h g
  refine ⟨fun x => ?_, ihb (by simp [tabsGet, tabKeys])⟩
  rw [iha x]
  simp [tabsGet, tabKeys, refNamesProgram]

/-- Witness for C6 at a concrete one-namespace unit with a single trait access
`o.*foo`: the namespace's `symbols` map holds exactly the name `foo`. -/
theorem namespace_requests_exact_witness :
    (∀ x, x ∈ tabKeys (tabsGet ([([], [("foo", "_foo_1")])] : Tabs) []) ↔
      x ∈ refNamesProgram [[]] []
        (.cons (.labeled "_StraitsProvider" (.exprStmt (.ident "T")))
          (.cons (.exprStmt (.member (.member (.ident "o") (.ident "_Straits") false)
            (.ident "foo") false)) .nil))) ∧
    (tabKeys (tabsGet ([([], [("foo", "_foo_1")])] : Tabs) [])).Nodup :=
  namespace_requests_exact.2.1
    (.cons (.labeled "_StraitsProvider" (.exprStmt (.ident "T")))
      (.cons (.exprStmt (.member (.member (.ident "o") (.ident "_Straits") false)
        (.ident "foo") false)) .nil))
    [[]]
    (.cons (.labeled "_StraitsProvider" (.exprStmt (.ident "T")))
      (.cons (.exprStmt (.member (.ident "o") (.ident "_foo_1") true)) .nil))
    ⟨2, [([], [("foo", "_foo_1")])]⟩ rfl []




/-! ## The global marker invariant and unguarded accesses: claim C1 -/

mutual
theorem hasStraitsE_clean (e : Expr) : hasStraitsE (cleanExpr e) = hasStraitsE e := by
  cases e with
  | ident n => rfl
  | strLit v => rfl
  | member o p comp =>
    simp only [cleanExpr, hasStraitsE, hasStraitsE_clean o, hasStraitsE_clean p]
  | tmpl qs es => simp only [cleanExpr, hasStraitsE, hasStraitsEL_clean es]
  | call f a => simp only [cleanExpr, hasStraitsE, hasStraitsE_clean f, hasStraitsEL_clean a]
  | other tg ch => simp only [cleanExpr, hasStraitsE, hasStraitsEL_clean ch]

theorem hasStraitsEL_clean (es : ExprList) :
    hasStraitsEL (cleanExprList es) = hasStraitsEL es := by
  cases es with
  | nil => rfl
  | cons e es =>
    simp only [cleanExprList, hasStraitsEL, hasStraitsE_clean e, hasStraitsEL_clean es]
end

theorem hasStraitsDL_clean (ds : DeclList) : hasStraitsDL (cleanDecls ds) = hasStraitsDL ds := by
  induction ds with
  | nil => rfl
  | cons id init rest ih =>
    simp only [cleanDecls, hasStraitsDL, hasStraitsE_clean init, ih]

mutual
theorem hasStraitsS_clean (s : Stmt) : hasStraitsS (cleanStmt s) = hasStraitsS s := by
  cases s with
  | exprStmt e => simp only [cleanStmt, hasStraitsS, hasStraitsE_clean e]
  | labeled l b => simp only [cleanStmt, hasStraitsS, hasStraitsS_clean b]
  | block ss => simp only [cleanStmt, hasStraitsS, hasStraitsSL_clean ss]
  | varDecl kind ds => simp only [cleanStmt, hasStraitsS, hasStraitsDL_clean ds]
  | getSymbolDecl n => rfl
  | other tg es ss =>
    simp only [cleanStmt, hasStraitsS, hasStraitsEL_clean es, hasStraitsSL_clean ss]

theorem hasStraitsSL_clean (ss : StmtList) :
    hasStraitsSL (cleanStmts ss) = hasStraitsSL ss := by
  cases ss with
  | nil => rfl
  | cons s ss =>
    simp only [cleanStmts, hasStraitsSL, hasStraitsS_clean s, hasStraitsSL_clean ss]
end

/-- The `_Straits` identifiers sitting in a statement's own (immediate) node:
its expressions, its label, its declarator binders — not in nested
statements.  A trait-access marker always sits in some statement's own
expressions. -/
def straitsInOwn : Stmt → Bool
  | .exprStmt e => hasStraitsE e
  | .labeled l _ => l = "_Straits"
  | .block _ => false
  | .varDecl _ ds => hasStraitsDL ds
  | .getSymbolDecl n => n = "_Straits"
  | .other _ es _ => hasStraitsEL es

theorem hasStraitsS_of_own (s : Stmt) (h : straitsInOwn s = true) : hasStraitsS s = true := by
  cases s with
  | exprStmt e => exact h
  | labeled l b => simp only [straitsInOwn] at h; simp [hasStraitsS, h]
  | block ss => exact absurd h (by simp [straitsInOwn])
  | varDecl kind ds => exact h
  | getSymbolDecl n => exact h
  | other tg es ss => simp only [straitsInOwn] at h; simp [hasStraitsS, h]

theorem hasStraitsS_of_child (s : Stmt) (h : hasStraitsSL (stmtChild s) = true) :
    hasStraitsS s = true := by
  cases s with
  | exprStmt e => simp [stmtChild, hasStraitsSL] at h
  | labeled l b =>
    simp only [stmtChild, hasStraitsSL, Bool.or_false] at h
    simp [hasStraitsS, h]
  | block ss => exact h
  | varDecl kind ds => simp [stmtChild, hasStraitsSL] at h
  | getSymbolDecl n => simp [stmtChild, hasStraitsSL] at h
  | other tg es ss => simp only [stmtChild] at h; simp [hasStraitsS, h]

theorem hasStraitsSL_of_nth (ss : StmtList) : ∀ (j : Nat) (s : Stmt),
    nthStmt ss j = some s → hasStraitsS s = true → hasStraitsSL ss = true := by
  cases ss with
  | nil => intro j s h; exact Option.noConfusion h
  | cons s0 rest =>
    intro j s h hs
    cases j with
    | zero =>
      simp only [nthStmt] at h
      injection h with h
      subst h
      simp [hasStraitsSL, hs]
    | succ j =>
      simp only [nthStmt] at h
      simp [hasStraitsSL, hasStraitsSL_of_nth rest j s h hs]

theorem hasStraitsSL_of_at : ∀ (π : Path) (ss : StmtList) (s : Stmt),
    stmtAtList ss π = some s → hasStraitsS s = true → hasStraitsSL ss = true := by
  intro π
  induction π with
  | nil => intro ss s h; exact Option.noConfusion h
  | cons j rest ih =>
    intro ss s h hs
    cases rest with
    | nil => exact hasStraitsSL_of_nth ss j s h hs
    | cons r0 rrest =>
      simp only [stmtAtList] at h
      cases hn : nthStmt ss j with
      | none => rw [hn] at h; exact Option.noConfusion h
      | some s0 =>
        rw [hn] at h
        exact hasStraitsSL_of_nth ss j s0 hn
          (hasStraitsS_of_child s0 (ih (stmtChild s0) s h hs))



/-- Positional decomposition of the statement-list walk: the `j`-th output
statement is the rewrite of the `j`-th input statement, at path `pp ++ [i+j]`,
from some intermediate state. -/
theorem rewriteStmts_nth (ss : StmtList) : ∀ keys gov pp i st ss2 st2 j s,
    rewriteStmts keys gov pp i st ss = .ok (ss2, st2) →
    nthStmt ss j = some s →
    ∃ s' stA stB, rewriteStmt keys gov (pp ++ [i + j]) stA s = .ok (s', stB) ∧
      nthStmt ss2 j = some s' := by
  cases ss with
  | nil =>
    intro keys gov pp i st ss2 st2 j s h hn
    exact Option.noConfusion hn
  | cons s0 rest =>
    intro keys gov pp i st ss2 st2 j s h hn
    cases hs : rewriteStmt keys gov (pp ++ [i]) st s0 with
    | error err =>
      simp only [rewriteStmts, bind, Except.bind, hs] at h
      exact Except.noConfusion h
    | ok v =>
      cases hr : rewriteStmts keys gov pp (i + 1) v.2 rest with
      | error err =>
        simp only [rewriteStmts, bind, Except.bind, hs, hr] at h
        exact Except.noConfusion h
      | ok w =>
        simp only [rewriteStmts, bind, Except.bind, hs, hr, Except.ok.injEq,
          Prod.mk.injEq] at h
        obtain ⟨h1, -⟩ := h
        subst h1
        cases j with
        | zero =>
          simp only [nthStmt] at hn
          injection hn with hn
          subst hn
          exact ⟨v.1, st, v.2, by simpa using hs, rfl⟩
        | succ j =>
          simp only [nthStmt] at hn
          obtain ⟨s', stA, stB, hrw, hn2⟩ :=
            rewriteStmts_nth rest keys gov pp (i + 1) v.2 w.1 w.2 j s hr hn
          refine ⟨s', stA, stB, ?_, hn2⟩
          have : i + 1 + j = i + (j + 1) := by omega
          rw [← this]
          exact hrw

/-- A statement rewritten outside any governing namespace keeps its own
expressions, label and binders untouched, and its children are the walk of the
input's children, still ungoverned, provided the statement is not itself a
registered block. -/
theorem rewriteStmt_ungoverned (s : Stmt) : ∀ keys q st s2 st2,
    rewriteStmt keys none q st s = .ok (s2, st2) → q ∉ keys →
    straitsInOwn s2 = straitsInOwn s ∧
    ∃ stX stY, rewriteStmts keys none q 0 stX (stmtChild s) = .ok (stmtChild s2, stY) := by
  cases s with
  | exprStmt e =>
    intro keys q st s2 st2 h hq
    have hru : rewriteUnder none st e = .ok (e, st) := rfl
    simp only [rewriteStmt, hru, bind, Except.bind, Except.ok.injEq, Prod.mk.injEq] at h
    obtain ⟨h1, h2⟩ := h
    subst h1
    exact ⟨rfl, st, st, rfl⟩
  | labeled l b =>
    intro keys q st s2 st2 h hq
    simp only [rewriteStmt, Option.isSome_none, Bool.false_eq_true, false_and,
      if_false, reduceIte] at h
    cases hr : rewriteStmt keys none (q ++ [0]) st b with
    | error err =>
      rw [hr] at h
      simp only [bind, Except.bind] at h
      exact Except.noConfusion h
    | ok v =>
      rw [hr] at h
      simp only [bind, Except.bind, Except.ok.injEq, Prod.mk.injEq] at h
      obtain ⟨h1, -⟩ := h
      subst h1
      refine ⟨rfl, st, v.2, ?_⟩
      simp only [stmtChild, rewriteStmts, bind, Except.bind, List.append_nil, hr]
  | block ss =>
    intro keys q st s2 st2 h hq
    simp only [rewriteStmt] at h
    rw [if_neg hq] at h
    cases hr : rewriteStmts keys none q 0 st ss with
    | error err =>
      rw [hr] at h
      simp only [bind, Except.bind] at h
      exact Except.noConfusion h
    | ok v =>
      rw [hr] at h
      simp only [bind, Except.bind, Except.ok.injEq, Prod.mk.injEq] at h
      obtain ⟨h1, -⟩ := h
      subst h1
      exact ⟨rfl, st, v.2, hr⟩
  | varDecl kind ds =>
    intro keys q st s2 st2 h hq
    simp only [rewriteStmt, Except.ok.injEq, Prod.mk.injEq] at h
    obtain ⟨h1, -⟩ := h
    subst h1
    exact ⟨rfl, st, st, rfl⟩
  | getSymbolDecl n =>
    intro keys q st s2 st2 h hq
    simp only [rewriteStmt, Option.isSome_none, Bool.false_eq_true, false_and,
      if_false, reduceIte, Except.ok.injEq, Prod.mk.injEq] at h
    obtain ⟨h1, -⟩ := h
    subst h1
    exact ⟨rfl, st, st, rfl⟩
  | other tg es ss =>
    intro keys q st s2 st2 h hq
    cases hr : rewriteStmts keys none q 0 st ss with
    | error err =>
      simp only [rewriteStmt, bind, Except.bind, pure, Except.pure, hr] at h
      exact Except.noConfusion h
    | ok v =>
      simp only [rewriteStmt, bind, Except.bind, pure, Except.pure, hr, Except.ok.injEq,
        Prod.mk.injEq] at h
      obtain ⟨h1, -⟩ := h
      subst h1
      exact ⟨rfl, st, v.2, hr⟩

/-- Descending along an ungoverned path: the statement found at `π` before the
rewrite is still at `π` afterwards with the same own-node markers, as long as
no block on the way (absolute paths `pp ++ ρ` for prefixes `ρ` of `π`) is a
registry key. -/
theorem rewrite_descend (π : Path) : ∀ ss keys pp st ss2 st2 s,
    rewriteStmts keys none pp 0 st ss = .ok (ss2, st2) →
    stmtAtList ss π = some s →
    (∀ ρ, ρ <+: π → pp ++ ρ ∉ keys) →
    ∃ s', stmtAtList ss2 π = some s' ∧ straitsInOwn s' = straitsInOwn s := by
  induction π with
  | nil =>
    intro ss keys pp st ss2 st2 s h hat
    exact Option.noConfusion hat
  | cons j rest ih =>
    intro ss keys pp st ss2 st2 s h hat hρ
    cases rest with
    | nil =>
      have hn : nthStmt ss j = some s := hat
      obtain ⟨s', stA, stB, hrw, hn2⟩ :=
        rewriteStmts_nth ss keys none pp 0 st ss2 st2 j s h (by simpa using hn)
      have hq : pp ++ [j] ∉ keys := by
        have := hρ [j] (by simp)
        simpa using this
      obtain ⟨hown, -⟩ := rewriteStmt_ungoverned s keys (pp ++ [0 + j]) stA s' stB hrw
        (by simpa using hq)
      exact ⟨s', hn2, hown⟩
    | cons r0 rrest =>
      simp only [stmtAtList] at hat
      cases hn : nthStmt ss j with
      | none => rw [hn] at hat; exact Option.noConfusion hat
      | some s0 =>
        rw [hn] at hat
        obtain ⟨s0', stA, stB, hrw, hn2⟩ :=
          rewriteStmts_nth ss keys none pp 0 st ss2 st2 j s0 h hn
        have hq : pp ++ [j] ∉ keys := by
          have := hρ [j] (by simp [List.cons_prefix_cons])
          simpa using this
        obtain ⟨hown0, stX, stY, hchild⟩ :=
          rewriteStmt_ungoverned s0 keys (pp ++ [0 + j]) stA s0' stB hrw
            (by simpa using hq)
        have hρ' : ∀ ρ, ρ <+: (r0 :: rrest) → (pp ++ [0 + j]) ++ ρ ∉ keys := by
          intro ρ hpre
          have := hρ (j :: ρ) (by simp [List.cons_prefix_cons, hpre])
          simpa using this
        obtain ⟨s', hat', hown⟩ :=
          ih (stmtChild s0) keys (pp ++ [0 + j]) stX (stmtChild s0') stY s hchild hat hρ'
        refine ⟨s', ?_, hown⟩
        simp only [stmtAtList, hn2]
        exact hat'



theorem expandStmt_own (s : Stmt) (ad : List (Path × Option Stmt)) (p : Path)
    (h : straitsInOwn s = true) : hasStraitsS (expandStmt ad p s) = true := by
  cases s with
  | exprStmt e => exact h
  | labeled l b =>
    simp only [straitsInOwn] at h
    simp [expandStmt, hasStraitsS, h]
  | block ss => exact absurd h (by simp [straitsInOwn])
  | varDecl kind ds => exact h
  | getSymbolDecl n => exact h
  | other tg es ss =>
    simp only [straitsInOwn] at h
    simp [expandStmt, hasStraitsS, h]

/-- If the `j`-th input statement is not an anchor and its expansion carries a
marker, the expanded list carries a marker. -/
theorem expandStmts_nth_straits (ss : StmtList) : ∀ ad pp i j s,
    nthStmt ss j = some s → List.lookup (pp ++ [i + j]) ad = none →
    hasStraitsS (expandStmt ad (pp ++ [i + j]) s) = true →
    hasStraitsSL (expandStmts ad pp i ss) = true := by
  cases ss with
  | nil =>
    intro ad pp i j s hn
    exact Option.noConfusion hn
  | cons s0 rest =>
    intro ad pp i j s hn hl hs
    cases j with
    | zero =>
      simp only [nthStmt] at hn
      injection hn with hn
      subst hn
      simp only [Nat.add_zero] at hl hs
      simp only [expandStmts, hl]
      simp [hasStraitsSL, hs]
    | succ j =>
      simp only [nthStmt] at hn
      have htail : hasStraitsSL (expandStmts ad pp (i + 1) rest) = true := by
        refine expandStmts_nth_straits rest ad pp (i + 1) j s hn ?_ ?_
        · have : i + 1 + j = i + (j + 1) := by omega
          rw [this]
          exact hl
        · have : i + 1 + j = i + (j + 1) := by omega
          rw [this]
          exact hs
      simp only [expandStmts]
      cases hl0 : List.lookup (pp ++ [i]) ad with
      | none => simp [hasStraitsSL, htail]
      | some o =>
        cases o with
        | none => simpa using htail
        | some d => simp [hasStraitsSL, htail]

/-- Descending along a path none of whose (nonempty) prefixes is an anchor:
a statement with a marker in its own node keeps that marker through the
`finalize`/`remove` expansion. -/
theorem expand_descend (π : Path) : ∀ ss ad pp s,
    stmtAtList ss π = some s → straitsInOwn s = true →
    (∀ ρ, ρ <+: π → ρ ≠ [] → List.lookup (pp ++ ρ) ad = none) →
    hasStraitsSL (expandStmts ad pp 0 ss) = true := by
  induction π with
  | nil =>
    intro ss ad pp s hat
    exact Option.noConfusion hat
  | cons j rest ih =>
    intro ss ad pp s hat hown hρ
    cases rest with
    | nil =>
      have hn : nthStmt ss j = some s := hat
      have hl : List.lookup (pp ++ [0 + j]) ad = none := by
        have := hρ [j] (by simp) (by simp)
        simpa using this
      exact expandStmts_nth_straits ss ad pp 0 j s hn hl
        (expandStmt_own s ad (pp ++ [0 + j]) hown)
    | cons r0 rrest =>
      simp only [stmtAtList] at hat
      cases hn : nthStmt ss j with
      | none => rw [hn] at hat; exact Option.noConfusion hat
      | some s0 =>
        rw [hn] at hat
        have hρ' : ∀ ρ, ρ <+: (r0 :: rrest) → ρ ≠ [] →
            List.lookup ((pp ++ [j]) ++ ρ) ad = none := by
          intro ρ hpre hne
          have := hρ (j :: ρ) (by simp [List.cons_prefix_cons, hpre]) (by simp)
          simpa using this
        have hchild : hasStraitsSL (expandStmts ad (pp ++ [j]) 0 (stmtChild s0)) = true :=
          ih (stmtChild s0) ad (pp ++ [j]) s hat hown hρ'
        have hl : List.lookup (pp ++ [0 + j]) ad = none := by
          have := hρ [j] (by simp [List.cons_prefix_cons]) (by simp)
          simpa using this
        refine expandStmts_nth_straits ss ad pp 0 j s0 hn hl ?_
        have hstep : hasStraitsS (expandStmt ad (pp ++ [j]) s0) = true := by
          cases s0 with
          | exprStmt e =>
            simp only [stmtChild] at hat
            cases rrest <;> simp [stmtAtList, nthStmt] at hat
          | varDecl kind ds =>
            simp only [stmtChild] at hat
            cases rrest <;> simp [stmtAtList, nthStmt] at hat
          | getSymbolDecl n =>
            simp only [stmtChild] at hat
            cases rrest <;> simp [stmtAtList, nthStmt] at hat
          | block body =>
            simp only [stmtChild] at hchild
            simp [expandStmt, hasStraitsS, hchild]
          | other tg es ssx =>
            simp only [stmtChild] at hchild
            simp [expandStmt, hasStraitsS, hchild]
          | labeled l b =>
            simp only [stmtChild] at hchild
            cases r0 with
            | succ r0x =>
              exfalso
              cases rrest <;> simp [stmtAtList, nthStmt] at hat
            | zero =>
              have hl0 : List.lookup ((pp ++ [j]) ++ [0]) ad = none := by
                refine hρ' [0] ?_ (by simp)
                simp [List.cons_prefix_cons]
              have hred : expandStmts ad (pp ++ [j]) 0 (.cons b .nil) =
                  .cons (expandStmt ad ((pp ++ [j]) ++ [0]) b) .nil := by
                simp only [expandStmts, hl0]
              rw [hred] at hchild
              simp only [hasStraitsSL, Bool.or_false] at hchild
              have hchild2 : hasStraitsS (expandStmt ad (pp ++ [j, 0]) b) = true := by
                simpa [List.append_assoc] using hchild
              simp [expandStmt, hasStraitsS, hchild2]
        simpa using hstep



/-- Every registry entry's anchor is a direct child of its key block: the
registry traversal registers a provider statement under its parent path. -/
def AnchorInv (r : Registry) : Prop :=
  ∀ e ∈ r, ∃ j, e.snd.anchor = e.fst ++ [j]

theorem addProviderPath_anchor (ns : NS) (x : Path) :
    (addProviderPath ns x).anchor = ns.anchor := by
  unfold addProviderPath
  split <;> rfl

theorem foldl_addProviderPath_anchor (L : List Path) :
    ∀ ns : NS, (L.foldl addProviderPath ns).anchor = ns.anchor := by
  induction L with
  | nil => intro ns; rfl
  | cons x L ih =>
    intro ns
    simp only [List.foldl_cons, ih, addProviderPath_anchor]

theorem anchorInv_regUpdate (r : Registry) (p : Path) (f : NS → NS)
    (hf : ∀ ns, (f ns).anchor = ns.anchor) (h : AnchorInv r) :
    AnchorInv (regUpdate r p f) := by
  intro e he
  simp only [regUpdate, List.mem_map] at he
  obtain ⟨e0, he0, heq⟩ := he
  by_cases hp : e0.fst = p
  · rw [if_pos hp] at heq
    obtain ⟨j, hj⟩ := h e0 he0
    exact ⟨j, by rw [← heq]; simpa [hf] using hj⟩
  · rw [if_neg hp] at heq
    subst heq
    exact h e0 he0

mutual
theorem anchorInv_collectStmt (s : Stmt) : ∀ pp k my acc acc2,
    (∃ j : Nat, my = pp ++ [j]) → collectStmt pp k my s acc = .ok acc2 →
    AnchorInv acc → AnchorInv acc2 := by
  cases s with
  | labeled l b =>
    intro pp k my acc acc2 hmy h hinv
    by_cases hl : l = "_StraitsProvider"
    · by_cases hk : k = PKind.program ∨ k = PKind.blockK
      · cases b with
        | exprStmt e =>
          simp only [collectStmt, if_pos hl, if_pos hk] at h
          have hstep : AnchorInv (match List.lookup pp acc with
              | some _ => regUpdate acc pp (fun ns => addProviderPath ns my)
              | none => acc ++ [(pp, { anchor := my, providers := [my] })]) := by
            cases hlk : List.lookup pp acc with
            | some ns0 =>
              exact anchorInv_regUpdate acc pp _ (fun ns => addProviderPath_anchor ns my) hinv
            | none =>
              intro e2 he2
              rcases List.mem_append.mp he2 with h2 | h2
              · exact hinv e2 h2
              · simp only [List.mem_singleton] at h2
                subst h2
                exact hmy
          rw [show (match List.lookup pp acc with
              | some _ => regUpdate acc pp (fun ns => addProviderPath ns my)
              | none => acc ++ [(pp, { anchor := my, providers := [my] })]) =
              acc2 from ?_] at hstep
          · exact hstep
          · cases hlk : List.lookup pp acc with
            | some ns0 =>
              simp only [hlk] at h ⊢
              simpa [collectStmt] using h
            | none =>
              simp only [hlk] at h ⊢
              simpa [collectStmt] using h
        | labeled l2 b2 =>
          simp only [collectStmt, if_pos hl, if_pos hk] at h
          exact Except.noConfusion h
        | block ss =>
          simp only [collectStmt, if_pos hl, if_pos hk] at h
          exact Except.noConfusion h
        | varDecl kind ds =>
          simp only [collectStmt, if_pos hl, if_pos hk] at h
          exact Except.noConfusion h
        | getSymbolDecl n =>
          simp only [collectStmt, if_pos hl, if_pos hk] at h
          exact Except.noConfusion h
        | other tg es ss =>
          simp only [collectStmt, if_pos hl, if_pos hk] at h
          exact Except.noConfusion h
      · simp only [collectStmt, if_pos hl, if_neg hk] at h
        exact Except.noConfusion h
    · simp only [collectStmt, if_neg hl] at h
      exact anchorInv_collectStmt b my .otherK (my ++ [0]) acc acc2 ⟨0, rfl⟩ h hinv
  | block ss =>
    intro pp k my acc acc2 hmy h hinv
    simp only [collectStmt] at h
    exact anchorInv_collectStmts ss my .blockK 0 acc acc2 h hinv
  | other tg es ss =>
    intro pp k my acc acc2 hmy h hinv
    simp only [collectStmt] at h
    exact anchorInv_collectStmts ss my .otherK 0 acc acc2 h hinv
  | exprStmt e =>
    intro pp k my acc acc2 hmy h hinv
    simp only [collectStmt, Except.ok.injEq] at h
    subst h
    exact hinv
  | varDecl kind ds =>
    intro pp k my acc acc2 hmy h hinv
    simp only [collectStmt, Except.ok.injEq] at h
    subst h
    exact hinv
  | getSymbolDecl n =>
    intro pp k my acc acc2 hmy h hinv
    simp only [collectStmt, Except.ok.injEq] at h
    subst h
    exact hinv

theorem anchorInv_collectStmts (ss : StmtList) : ∀ pp k i acc acc2,
    collectStmts pp k i ss acc = .ok acc2 → AnchorInv acc → AnchorInv acc2 := by
  cases ss with
  | nil =>
    intro pp k i acc acc2 h hinv
    simp only [collectStmts, Except.ok.injEq] at h
    subst h
    exact hinv
  | cons s rest =>
    intro pp k i acc acc2 h hinv
    cases hc : collectStmt pp k (pp ++ [i]) s acc with
    | error err =>
      simp only [collectStmts, bind, Except.bind, hc] at h
      exact Except.noConfusion h
    | ok accM =>
      simp only [collectStmts, bind, Except.bind, hc] at h
      exact anchorInv_collectStmts rest pp k (i + 1) accM acc2 h
        (anchorInv_collectStmt s pp k (pp ++ [i]) acc accM ⟨i, rfl⟩ hc hinv)
end

theorem anchorInv_collectProgram (prog : StmtList) (reg : Registry)
    (h : collectProgram prog = .ok reg) : AnchorInv reg :=
  anchorInv_collectStmts prog [] .program 0 [] reg h (fun e he => absurd he (List.not_mem_nil e))

theorem anchorInv_inheritStep (b : Path) (acc : Registry) (a : Path)
    (h : AnchorInv acc) : AnchorInv (inheritStep b acc a) := by
  unfold inheritStep
  cases hl : List.lookup a acc with
  | none => exact h
  | some ansNS =>
    exact anchorInv_regUpdate acc b _ (fun ns => foldl_addProviderPath_anchor _ ns) h

theorem anchorInv_inheritOne (acc : Registry) (b : Path) (h : AnchorInv acc) :
    AnchorInv (inheritOne acc b) := by
  unfold inheritOne
  generalize ancChain b = L
  induction L generalizing acc with
  | nil => exact h
  | cons x L ih =>
    simp only [List.foldl_cons]
    exact ih _ (anchorInv_inheritStep b acc x h)

theorem anchorInv_inheritAll (reg : Registry) (h : AnchorInv reg) :
    AnchorInv (inheritAll reg) := by
  unfold inheritAll
  generalize regKeys reg = KL
  induction KL generalizing reg with
  | nil => exact h
  | cons x KL ih =>
    simp only [List.foldl_cons]
    exact ih _ (anchorInv_inheritOne reg x h)

theorem adlookup_some_key (ad : List (Path × Option Stmt)) (ρ : Path) (o : Option Stmt)
    (h : List.lookup ρ ad = some o) : ρ ∈ ad.map Prod.fst := by
  induction ad with
  | nil => exact Option.noConfusion h
  | cons e rest ih =>
    obtain ⟨k, v⟩ := e
    by_cases hk : ρ = k
    · subst hk
      simp
    · have hb : (ρ == k) = false := by simpa using hk
      simp only [List.lookup, hb] at h
      simp only [List.map_cons, List.mem_cons]
      exact Or.inr (ih h)

theorem anchorData_keys (reg : Registry) (tabs : Tabs) (gs : String) (prog : StmtList) :
    (anchorData reg tabs gs prog).map Prod.fst = reg.map (fun e => e.snd.anchor) := by
  simp [anchorData, List.map_map]



theorem regKeys_inheritAll (reg : Registry) : regKeys (inheritAll reg) = regKeys reg := by
  unfold inheritAll
  exact regKeys_foldl_inheritOne (regKeys reg) reg

/-- Claim C1: after the pass completes successfully, zero placeholder markers
(identifiers spelled with the reserved placeholder name `_Straits`) remain in
the tree; and a trait access carried by a statement none of whose ancestor
blocks is a registry key — no enclosing provider declaration anywhere in its
ancestor chain — makes the pass fail with a compile-time error rather than
being deferred to runtime. -/
theorem pass_leaves_no_markers :
    (∀ prog out, runPass prog = .ok out → hasStraitsSL out = false) ∧
    (∀ prog π s, stmtAtList prog π = some s → straitsInOwn s = true →
      (∀ reg, collectProgram prog = .ok reg → ∀ ρ, ρ <+: π → ρ ∉ regKeys reg) →
      ∃ e, runPass prog = .error e) := by
  constructor
  · intro prog out h
    cases hc : collectProgram prog with
    | error err =>
      simp only [runPass, bind, Except.bind, hc] at h
      exact Except.noConfusion h
    | ok reg =>
      cases reg with
      | nil =>
        cases hms : hasStraitsSL prog with
        | true =>
          simp only [runPass, bind, Except.bind, hc, finalCheck, hms] at h
          exact Except.noConfusion h
        | false =>
          simp only [runPass, bind, Except.bind, hc, finalCheck, hms] at h
          simp at h
          rw [← h]
          exact hms
      | cons r rs =>
        simp only [runPass, bind, Except.bind, hc] at h
        cases hrw : rewriteProgram (regKeys (inheritAll (r :: rs))) ⟨1, []⟩ prog with
        | error err =>
          rw [hrw] at h
          exact Except.noConfusion h
        | ok v =>
          rw [hrw] at h
          obtain ⟨prog2, st⟩ := v
          cases hms : hasStraitsSL (cleanStmts (.cons (.getSymbolDecl (uidName "getSymbol" 0))
              (expandStmts (anchorData (inheritAll (r :: rs)) st.tabs
                (uidName "getSymbol" 0) prog2) [] 0 prog2))) with
          | true =>
            simp only [finalCheck, hms] at h
            exact Except.noConfusion h
          | false =>
            simp only [finalCheck, hms] at h
            simp at h
            rw [← h]
            exact hms
  · intro prog π s hat hown hkeys
    cases hr : runPass prog with
    | error e => exact ⟨e, rfl⟩
    | ok out =>
      exfalso
      cases hc : collectProgram prog with
      | error err =>
        simp only [runPass, bind, Except.bind, hc] at hr
        exact Except.noConfusion hr
      | ok reg =>
        cases reg with
        | nil =>
          have htrue : hasStraitsSL prog = true :=
            hasStraitsSL_of_at π prog s hat (hasStraitsS_of_own s hown)
          simp only [runPass, bind, Except.bind, hc, finalCheck, htrue] at hr
          exact Except.noConfusion hr
        | cons r rs =>
          have hknone : ∀ ρ, ρ <+: π → ρ ∉ regKeys (inheritAll (r :: rs)) := by
            intro ρ hρ
            rw [regKeys_inheritAll]
            exact hkeys (r :: rs) hc ρ hρ
          have hgov : (if ([] : Path) ∈ regKeys (inheritAll (r :: rs)) then
              some ([] : Path) else none) = none :=
            if_neg (hknone [] List.nil_prefix)
          simp only [runPass, bind, Except.bind, hc] at hr
          cases hrw : rewriteProgram (regKeys (inheritAll (r :: rs))) ⟨1, []⟩ prog with
          | error err =>
            rw [hrw] at hr
            exact Except.noConfusion hr
          | ok v =>
            rw [hrw] at hr
            obtain ⟨prog2, st⟩ := v
            have hrw' : rewriteStmts (regKeys (inheritAll (r :: rs))) none [] 0
                ⟨1, []⟩ prog = .ok (prog2, st) := by
              unfold rewriteProgram at hrw
              rw [hgov] at hrw
              exact hrw
            obtain ⟨s', hat2, hown2⟩ :=
              rewrite_descend π prog (regKeys (inheritAll (r :: rs))) [] ⟨1, []⟩
                prog2 st s hrw' hat (by intro ρ hρ; simpa using hknone ρ hρ)
            have hinvA : AnchorInv (inheritAll (r :: rs)) :=
              anchorInv_inheritAll (r :: rs) (anchorInv_collectProgram prog (r :: rs) hc)
            have hadnone : ∀ ρ, ρ <+: π → ρ ≠ [] →
                List.lookup (([] : Path) ++ ρ)
                  (anchorData (inheritAll (r :: rs)) st.tabs
                    (uidName "getSymbol" 0) prog2) = none := by
              intro ρ hρ hne
              cases hlk : List.lookup (([] : Path) ++ ρ)
                  (anchorData (inheritAll (r :: rs)) st.tabs
                    (uidName "getSymbol" 0) prog2) with
              | none => rfl
              | some o =>
                exfalso
                have hkmem := adlookup_some_key _ _ _ hlk
                rw [anchorData_keys] at hkmem
                simp only [List.mem_map] at hkmem
                obtain ⟨e2, he2, heq⟩ := hkmem
                obtain ⟨j, hj⟩ := hinvA e2 he2
                have hfst : e2.fst ∈ regKeys (inheritAll (r :: rs)) :=
                  List.mem_map.mpr ⟨e2, he2, rfl⟩
                have hpre : e2.fst <+: π := by
                  have h1 : e2.fst <+: ([] : Path) ++ ρ := by
                    rw [← heq, hj]
                    exact ⟨[j], rfl⟩
                  simp only [List.nil_append] at h1
                  exact h1.trans hρ
                exact hknone e2.fst hpre hfst
            have hexp : hasStraitsSL (expandStmts
                (anchorData (inheritAll (r :: rs)) st.tabs (uidName "getSymbol" 0) prog2)
                [] 0 prog2) = true :=
              expand_descend π prog2 _ [] s' hat2 (by rw [hown2]; exact hown) hadnone
            have hfive : hasStraitsSL (cleanStmts
                (.cons (.getSymbolDecl (uidName "getSymbol" 0))
                  (expandStmts (anchorData (inheritAll (r :: rs)) st.tabs
                    (uidName "getSymbol" 0) prog2) [] 0 prog2))) = true := by
              rw [hasStraitsSL_clean]
              simp [hasStraitsSL, hexp]
            simp only [finalCheck, hfive] at hr
            exact Except.noConfusion hr

/-- Witness for C1's unguarded-use half: a unit consisting of the single trait
access `o.*foo` with no provider statement anywhere is rejected with a
compile-time error. -/
theorem pass_leaves_no_markers_witness :
    ∃ e, runPass (.cons (.exprStmt (.member (.member (.ident "o") (.ident "_Straits") false)
      (.ident "foo") false)) .nil) = .error e :=
  pass_leaves_no_markers.2
    (.cons (.exprStmt (.member (.member (.ident "o") (.ident "_Straits") false)
      (.ident "foo") false)) .nil)
    [0]
    (.exprStmt (.member (.member (.ident "o") (.ident "_Straits") false)
      (.ident "foo") false))
    rfl rfl
    (by
      intro reg hreg ρ hρ
      have hempty : ([] : Registry) = reg := by
        injection hreg
      rw [← hempty]
      simp [regKeys])


end StraitsBabel
